import Mathlib

/-!
# TellStore: verification of the delta-main engine specification

This file gives a shallow embedding of the parts of the TellStore source that
the specification talks about, and proves (or refutes) the specified
properties against that embedding.

Embedded components:

* `util/FixedSizeStack.hpp` — the fixed-capacity concurrent stack
  (`FixedSizeStack` below, with sequential semantics for `push`/`pop`).
* `server/ServerSocket.cpp` — the snapshot-resolution logic of
  `ServerSocket::handleSnapshot` (`handleSnapshot` below).
* `deltamain/Record.hpp` — the version-chain read path and `revert`
  (the implementation lives outside the excerpted sources, so it is modelled
  from the spec; see `revertVersion`).
* `deltamain/colstore/ColumnMapPage.cpp` — the column-map compactor:
  `processUpdates`, the main-copy loop of `clean`, `needsCleaning`, the
  per-key body of `clean`, the page-level driver, and the pointer-action
  publish loop of `flushFillPage`.

Machine integers: all C++ `uint32_t`/`uint64_t` quantities in the modelled
code are sizes, counters and version numbers that the code never overflows
(versions are drawn from a 64-bit counter, sizes are bounded by the 2 MiB
page); they are modelled as `Nat`.
-/

namespace TellStore

/-! ## util/FixedSizeStack.hpp

`FixedSizeStack<T>` keeps a vector `mVec` of fixed length (the capacity), a
read head `mHead` and a write head `mWriteHead`.  Elements are modelled as
`Nat` (the C++ code stores word-sized pointers).  The semantics below is the
sequential semantics of the code: `pop` fails iff `mHead == 0`, `push` fails
iff `mWriteHead == mVec.size()`; on a successful push the forwarding loop
(lines 49-54) terminates only once `mHead` has been forwarded past the slot
just written, i.e. with `mHead = wHead + 1`, which is the post-state we take.
-/

structure FixedSizeStack where
  vec : List Nat
  head : Nat
  writeHead : Nat
deriving DecidableEq

namespace FixedSizeStack

/-- `FixedSizeStack(size)`: `mVec(size, nullptr), mHead(0), mWriteHead(0)`. -/
def init (size : Nat) : FixedSizeStack :=
  { vec := List.replicate size 0, head := 0, writeHead := 0 }

/-- `pop(T& result)` (FixedSizeStack.hpp lines 27-38): fails iff `mHead == 0`,
otherwise returns `mVec[head - 1]` and decrements the head. -/
def pop (s : FixedSizeStack) : Option Nat × FixedSizeStack :=
  if s.head = 0 then (none, s)
  else (some (s.vec.getD (s.head - 1) 0), { s with head := s.head - 1 })

/-- `push(T element)` (FixedSizeStack.hpp lines 40-57): fails iff
`mWriteHead == mVec.size()`; otherwise writes the element at `mVec[wHead]`,
bumps the write head and forwards `mHead` past the written slot. -/
def push (s : FixedSizeStack) (x : Nat) : Bool × FixedSizeStack :=
  if s.writeHead = s.vec.length then (false, s)
  else (true, { vec := s.vec.set s.writeHead x,
                head := s.writeHead + 1,
                writeHead := s.writeHead + 1 })

/-- `empty()` (FixedSizeStack.hpp lines 59-61): `return mHead == mVec.size();`. -/
def empty (s : FixedSizeStack) : Bool :=
  s.head == s.vec.length

/-- The number of elements the stack currently holds: slots `0 .. mHead - 1`. -/
def size (s : FixedSizeStack) : Nat := s.head

/-- A lifetime of the stack: a sequence of operations applied in order. -/
inductive Op where
  | push (x : Nat)
  | pop
deriving DecidableEq

/-- Run a sequence of operations, counting the pushes that succeeded. -/
def run (s : FixedSizeStack) : List Op → FixedSizeStack × Nat
  | [] => (s, 0)
  | Op.push x :: ops =>
      let (ok, s') := s.push x
      let (s'', n) := run s' ops
      (s'', (if ok then 1 else 0) + n)
  | Op.pop :: ops =>
      run (s.pop).2 ops

end FixedSizeStack

/-! ## server/ServerSocket.cpp — handleSnapshot

`ServerSocket::handleSnapshot` (lines 317-349) reads two flags from the
request (`cached`, `hasDescriptor`) and resolves the snapshot against the
per-connection snapshot cache `mSnapshots` (a map keyed by snapshot version).
The cache is modelled as the list of versions it contains; a deserialized
descriptor is represented by its version. -/

/-- Where the snapshot that an operation runs under came from. -/
inductive SnapshotSource where
  /-- Found under `version` in the per-connection cache `mSnapshots`. -/
  | cachedSnapshot (version : Nat)
  /-- Deserialized from the request message. -/
  | newSnapshot (version : Nat)
deriving DecidableEq

/-- Outcome of `handleSnapshot`: either the invalid-snapshot error response,
or the wrapped operation `f` runs with the resolved snapshot, leaving the
given cache contents behind. -/
inductive SnapshotOutcome where
  | errorInvalidSnapshot
  | run (src : SnapshotSource) (cacheAfter : List Nat)
deriving DecidableEq

/-- `ServerSocket::handleSnapshot` (ServerSocket.cpp lines 317-349).
`version` is the version the request names: the cached version it asks for
when `cached && !hasDescriptor`, or the version of the descriptor it carries
when `hasDescriptor`. -/
def handleSnapshot (cached hasDescriptor : Bool) (version : Nat)
    (cache : List Nat) : SnapshotOutcome :=
  if cached then
    if !hasDescriptor then
      -- The client did not send a snapshot so it has to be in the cache
      if version ∈ cache then
        SnapshotOutcome.run (SnapshotSource.cachedSnapshot version) cache
      else SnapshotOutcome.errorInvalidSnapshot
    else
      -- The client sent a snapshot, add it to the cache (it must not already be there)
      if version ∈ cache then SnapshotOutcome.errorInvalidSnapshot
      else SnapshotOutcome.run (SnapshotSource.newSnapshot version) (version :: cache)
  else if hasDescriptor then
    SnapshotOutcome.run (SnapshotSource.newSnapshot version) cache
  else SnapshotOutcome.errorInvalidSnapshot

/-- The error condition exactly as claim C8 states it: no cached version and
no descriptor, or a named cached version absent from the cache, or a sent
descriptor whose version is already present in the cache. -/
def claimedInvalidCondition (cached hasDescriptor : Bool) (version : Nat)
    (cache : List Nat) : Prop :=
  (¬cached = true ∧ ¬hasDescriptor = true) ∨
  (cached = true ∧ ¬hasDescriptor = true ∧ version ∉ cache) ∨
  (hasDescriptor = true ∧ version ∈ cache)

instance (c d : Bool) (v : Nat) (cache : List Nat) :
    Decidable (claimedInvalidCondition c d v cache) := by
  unfold claimedInvalidCondition
  infer_instance

/-! ## deltamain/Record.hpp — version chains and revert

A log-structured record is a chain of log entries, newest first.  Each entry
carries a version, a deletion marker (`LOG_DELETE`) and, per the layout
documented in `Record.hpp` (lines 49-52), "1 byte with a boolean, indicating
whether the entry got reverted".  The payload is abstracted to a `Nat`.

The implementations of `DMRecordImplBase::data` (the read path) and
`DMRecordImplBase::revert` live in `deltamain/Record.cpp`, which is not among
the excerpted sources; both are modelled from the spec below. -/

structure LogVersion where
  version : Nat
  deleted : Bool
  reverted : Bool
  payload : Nat
deriving DecidableEq

/-- Modelled from the spec: `revert(version)` "marks the log entry at
`version` as reverted (a side bit in its header) so it is skipped by future
reads" (§4.4); the storage API table (§6) has `revert` return "false if
nothing to revert".  The implementation (`DMRecordImplBase::revert` in
`deltamain/Record.cpp`) is not under the excerpted sources.  The model sets
the reverted bit on the entry at the given version and reports whether an
entry at that version existed. -/
def revertVersion (chain : List LogVersion) (v : Nat) : List LogVersion × Bool :=
  (chain.map (fun e => if e.version = v then { e with reverted := true } else e),
   chain.any (fun e => e.version == v))

/-- Modelled from the spec: the read path (§4.4, "Read path") walks the chain
newest-first, skips reverted entries (§4.4: a reverted entry "is skipped by
future reads"), returns *not-found* on the first visible Delete, and
otherwise the first entry whose version is `≤ S.version` (the in-flight set
is irrelevant to the revert claim and is omitted: the snapshot is just its
version). -/
def getVisible (snapshot : Nat) : List LogVersion → Option (Nat × Nat)
  | [] => none
  | e :: rest =>
      if e.reverted then getVisible snapshot rest
      else if e.version ≤ snapshot then
        if e.deleted then none else some (e.version, e.payload)
      else getVisible snapshot rest

/-! ## ColumnMapPage.cpp — the publish loop of flushFillPage

`flushFillPage` (lines 631-638) walks `mPointerActions`; each action holds
the source record's `newest` slot, the head value observed when the action
was recorded (`expected`), and the new main entry (`desired`).  The loop

```
while (!action.ptr->compare_exchange_strong(action.expected, desired))
    action.desired->newest.store(action.expected);
```

CASes `src.newest` from the expected head to the new main entry tagged
`MAIN`; `compare_exchange_strong` loads the observed head into
`action.expected` on failure, and the loop stores it into the new entry's
`newest` before retrying.

The delta-chain head is modelled as the list of update-log entries reachable
from it, newest first (entries abstracted to `Nat` ids); concurrent writers
only ever prepend entries, so every value the source slot takes has the
previous value as a suffix.  `sched` lists the values concurrent writers
store into the source slot, one before each failing CAS retry; a finite
schedule means interference eventually stops, which is exactly the situation
in which the loop terminates. -/

/-- A delta chain: update-log entries reachable from a `newest` head, newest
first.  `[]` is the untagged-zero head. -/
abbrev Chain := List Nat

/-- The CAS-retry publish loop of `flushFillPage` (lines 632-637) for one
pointer action.  Arguments: the current value of the source record's
`newest` slot, the `expected` value of the action, the current value of the
new main entry's `newest` field, and the interference schedule.  Returns the
final observed source chain (the chain the successful CAS replaced by the
Main-tagged pointer to the new entry) and the final value of the new
entry's `newest`. -/
def publishPointerAction (cur expected dNewest : Chain) :
    List Chain → Chain × Chain
  | [] =>
      if cur = expected then
        -- CAS succeeds: src.newest := tagged(desired, MAIN)
        (cur, dNewest)
      else
        -- CAS fails once: desired.newest := observed; the retry succeeds
        (cur, cur)
  | h :: rest =>
      if cur = expected then (cur, dNewest)
      else
        -- CAS fails: desired.newest := observed; a writer stores h; retry
        publishPointerAction h cur cur rest

/-- A schedule is well-formed when every value a writer stores extends the
value it replaces (writers only prepend new update entries). -/
inductive SchedExtends : Chain → List Chain → Prop
  | nil (c : Chain) : SchedExtends c []
  | cons {c h : Chain} {rest : List Chain} :
      c <:+ h → SchedExtends h rest → SchedExtends c (h :: rest)

/-! ## ColumnMapPage.cpp — the compactor

The column-map compactor (`ColumnMapPageModifier`) is embedded at the
granularity of fill-page rows.  A row of a column-map main page is the
triple (key, version, size): `entries[i]` holds key and version, `sizes[i]`
holds the per-row variable-heap span, with `sizes[i] == 0` denoting a delete
tombstone (§4.6).  The physical byte layout (`recordData`, `heapData`, the
`CleanAction` batching of `memcpy` runs) carries the same rows and is not
modelled; the accounting of their sizes against `MAX_DATA_SIZE` is.

`ColumnMapContext` enters only through `entryOverhead()`, `fixedSize()` and
`MAX_DATA_SIZE`, collected in `Ctx` below. -/

/-- The per-table constants of `ColumnMapContext` used by the modifier. -/
structure Ctx where
  entryOverhead : Nat
  fixedSize : Nat
  maxDataSize : Nat
deriving DecidableEq

/-- One row of a column-map main page: `entries[i]` plus `sizes[i]`.
`size = 0` is a delete tombstone. -/
structure Row where
  key : Nat
  version : Nat
  size : Nat
deriving DecidableEq

/-- One entry of the update log chain hanging off a record's `newest`
pointer: an `UpdateLogEntry` together with its `LogEntry` header.
`isDelete` is `logEntry->type() == RecordType::DELETE`; for a data entry
`dataSize` is `logEntry->size() - sizeof(UpdateLogEntry)`, the payload
accounted against the fill page. -/
structure UpdateEntry where
  version : Nat
  isDelete : Bool
  dataSize : Nat
deriving DecidableEq

/-- `std::numeric_limits<uint64_t>::max()`: initial value of the iterator's
lowest seen version. -/
def UINT64MAX : Nat := 2 ^ 64 - 1

/-- The mutable counters of `ColumnMapPageModifier` relevant to one record,
relative to the committed end indices: `updateIdx`/`fillIdx` are
`mUpdateIdx`/`mFillIdx`, `fillSize` is `mFillSize`, and `emits` lists the
fill-page rows written at indices `mFillEndIdx .. mFillIdx - 1` (the
pending, not yet committed rows of the record being processed). -/
structure UpdState where
  updateIdx : Nat
  fillIdx : Nat
  fillSize : Nat
  emits : List Row
deriving DecidableEq

/-- Result of `ColumnMapPageModifier::processUpdates`: `full` is the
`return false` on `mFillSize > MAX_DATA_SIZE` (lines 444-445); `ok` carries
the final counters, `updateIter.lowestVersion()` and the `wasDelete` flag. -/
inductive UpdResult where
  | full
  | ok (st : UpdState) (lowestVersion : Nat) (wasDelete : Bool)
deriving DecidableEq

/-- `ColumnMapPageModifier::processUpdates` (ColumnMapPage.cpp lines
406-458), one loop step per chain entry.

The update chain is traversed through `UpdateRecordIterator` whose
implementation (`deltamain/Record.cpp`) is not under the excerpted sources;
it is modelled from the spec: the iterator "yields updates in version order
and reports `lowestVersion` (the smallest version seen)" (§4.7 step 2).  So
`chain` is the list of update entries the iterator yields, newest first, and
the smallest version seen is threaded through `lowest` (updated for every
entry the iterator reaches, including the one a `break` leaves it on).

Loop body, in source order:
* if the previous emitted entry was a delete and this entry's version is
  below `mMinVersion`, drop the pair: decrement `mUpdateIdx` and `mFillIdx`,
  subtract the delete's bytes, clear `wasDelete`, break (lines 418-429);
* a delete at version `≤ mMinVersion` breaks without being written
  (lines 431-434); otherwise a delete accounts `fixedSize` more bytes and
  sets `wasDelete` (lines 436-437); a data entry accounts its payload
  (line 439);
* overflow of `MAX_DATA_SIZE` returns false (lines 443-446);
* `writeUpdate` appends the row — a delete writes size 0 (line 471), a data
  entry its payload size (line 508) — and bumps both counters (lines
  489-490);
* an entry at version `≤ mMinVersion` is the oldest readable one: break
  (lines 450-453). -/
def processUpdates (ctx : Ctx) (minVersion key : Nat) (st : UpdState)
    (wasDelete : Bool) (lowest : Nat) : List UpdateEntry → UpdResult
  | [] => UpdResult.ok st lowest wasDelete
  | e :: rest =>
    if wasDelete ∧ e.version < minVersion then
      UpdResult.ok
        { updateIdx := st.updateIdx - 1
          fillIdx := st.fillIdx - 1
          fillSize := st.fillSize - (ctx.entryOverhead + ctx.fixedSize)
          emits := st.emits.dropLast } (min lowest e.version) false
    else if e.isDelete then
      if e.version ≤ minVersion then
        UpdResult.ok st (min lowest e.version) wasDelete
      else if ctx.maxDataSize < st.fillSize + (ctx.entryOverhead + ctx.fixedSize) then
        UpdResult.full
      else
        -- the break on `version ≤ mMinVersion` at lines 450-453 cannot fire
        -- here: a delete at such a version broke out above already
        processUpdates ctx minVersion key
          { updateIdx := st.updateIdx + 1
            fillIdx := st.fillIdx + 1
            fillSize := st.fillSize + (ctx.entryOverhead + ctx.fixedSize)
            emits := st.emits ++ [⟨key, e.version, 0⟩] }
          true (min lowest e.version) rest
    else
      if ctx.maxDataSize < st.fillSize + (ctx.entryOverhead + e.dataSize) then
        UpdResult.full
      else
        let st' : UpdState :=
          { updateIdx := st.updateIdx + 1
            fillIdx := st.fillIdx + 1
            fillSize := st.fillSize + (ctx.entryOverhead + e.dataSize)
            emits := st.emits ++ [⟨key, e.version, e.dataSize⟩] }
        if e.version ≤ minVersion then
          UpdResult.ok st' (min lowest e.version) false
        else
          processUpdates ctx minVersion key st' false (min lowest e.version) rest

/-- Result of the main-copy loop of `clean`: `full` triggers the
flush-and-restart at lines 186-196. -/
inductive CopyResult where
  | full
  | ok (st : UpdState)
deriving DecidableEq

/-- The main-copy loop of `ColumnMapPageModifier::clean` (ColumnMapPage.cpp
lines 153-206): copies the surviving main versions of the record with key
`key` into the fill page.  `copied` counts the rows copied from the main so
far (`copyEndIdx - copyStartIdx`), which decides whether the pair
cancellation at lines 162-169 takes its delete back out of the update page
(`--mUpdateIdx`) or out of the copy region (`--copyEndIdx`).

Loop body, in source order:
* pair cancellation (lines 159-172): if `wasDelete` and this main version is
  below `mMinVersion`, drop the delete and this row, break;
* a tombstone row (`sizes[i] == 0`) at version `≤ mMinVersion` breaks
  without being copied (lines 174-177); otherwise a tombstone accounts
  `fixedSize` (line 178) and a data row its `sizes[i]` (line 181);
* overflow flushes and restarts the record (lines 185-196): `full` here;
* the row is written to the fill page (lines 198-200);
* a version `≤ mMinVersion` is the oldest readable one: break inclusively
  (lines 203-205). -/
def copyMain (ctx : Ctx) (minVersion key : Nat) (st : UpdState)
    (wasDelete : Bool) (copied : Nat) : List Row → CopyResult
  | [] => CopyResult.ok st
  | r :: rest =>
    if wasDelete ∧ r.version < minVersion then
      CopyResult.ok
        { updateIdx := if copied = 0 then st.updateIdx - 1 else st.updateIdx
          fillIdx := st.fillIdx - 1
          fillSize := st.fillSize - (ctx.entryOverhead + ctx.fixedSize)
          emits := st.emits.dropLast }
    else if r.size = 0 then
      if r.version ≤ minVersion then CopyResult.ok st
      else if ctx.maxDataSize < st.fillSize + (ctx.entryOverhead + ctx.fixedSize) then
        CopyResult.full
      else
        -- the inclusive break at lines 203-205 cannot fire: this tombstone's
        -- version was just checked to be above `mMinVersion`
        copyMain ctx minVersion key
          { updateIdx := st.updateIdx
            fillIdx := st.fillIdx + 1
            fillSize := st.fillSize + (ctx.entryOverhead + ctx.fixedSize)
            emits := st.emits ++ [⟨key, r.version, 0⟩] }
          true (copied + 1) rest
    else
      if ctx.maxDataSize < st.fillSize + (ctx.entryOverhead + r.size) then
        CopyResult.full
      else
        let st' : UpdState :=
          { updateIdx := st.updateIdx
            fillIdx := st.fillIdx + 1
            fillSize := st.fillSize + (ctx.entryOverhead + r.size)
            emits := st.emits ++ [⟨key, r.version, r.size⟩] }
        if r.version ≤ minVersion then CopyResult.ok st'
        else copyMain ctx minVersion key st' false (copied + 1) rest

/-- Result of processing one record (one key run) inside `clean`:
* `overflow` — the fill page ran over `MAX_DATA_SIZE`; `clean` flushes and
  restarts the record from the beginning (lines 101-110 and 186-196);
* `invalidated` — nothing was emitted for the key: the record's `newest` is
  CASed to `NewestPointerTag::INVALID` and the key removed from the hash
  table (lines 117-126 and 214-221);
* `ok emits fillSize` — the rows emitted for the key and the resulting
  `mFillSize`; a pointer action is recorded and the key (re-)inserted into
  the hash table (lines 130-138 and 222-227). -/
inductive KeyResult where
  | overflow
  | invalidated
  | ok (emits : List Row) (fillSize : Nat)
deriving DecidableEq

/-- The per-record body of `ColumnMapPageModifier::clean` (ColumnMapPage.cpp
lines 80-258) for the key run starting at `baseIdx`: `chain` is the update
chain loaded from `entries[baseIdx].newest` (empty list for an untagged-zero
head), `rows` the main rows of the run, `fillSize0` the value of `mFillSize`
when the record's processing starts.

* With a non-empty chain, `processUpdates` runs first (lines 96-110).  If
  `lowestVersion ≤ mMinVersion` every main version is shadowed and the main
  run is not processed (lines 113-145).  Otherwise main rows with
  `version ≥ lowestVersion` are skipped (lines 147-150) and the rest copied
  by the main-copy loop.
* With no pending updates the whole run goes through the main-copy loop.
* If nothing was emitted the record is invalidated, else it is published
  (lines 113-139 and 212-254). -/
def cleanKey (ctx : Ctx) (minVersion : Nat) (fillSize0 : Nat)
    (chain : List UpdateEntry) (key : Nat) (rows : List Row) : KeyResult :=
  let st0 : UpdState := ⟨0, 0, fillSize0, []⟩
  match chain with
  | [] =>
    match copyMain ctx minVersion key st0 false 0 rows with
    | CopyResult.full => KeyResult.overflow
    | CopyResult.ok st =>
      if st.emits = [] then KeyResult.invalidated
      else KeyResult.ok st.emits st.fillSize
  | _ :: _ =>
    match processUpdates ctx minVersion key st0 false UINT64MAX chain with
    | UpdResult.full => KeyResult.overflow
    | UpdResult.ok st1 lowest wasDelete =>
      if lowest ≤ minVersion then
        if st1.emits = [] then KeyResult.invalidated
        else KeyResult.ok st1.emits st1.fillSize
      else
        let rows' := rows.dropWhile (fun r => lowest ≤ r.version)
        match copyMain ctx minVersion key st1 wasDelete 0 rows' with
        | CopyResult.full => KeyResult.overflow
        | CopyResult.ok st2 =>
          if st2.emits = [] then KeyResult.invalidated
          else KeyResult.ok st2.emits st2.fillSize

/-! ### Page-level driver

A column-map main page groups the rows of one key contiguously, newest first
(§4.6); a page is the list of its key runs.  `chain` is the value of
`entries[baseIdx].newest` for the run's first entry — the only `newest` slot
`clean` and `needsCleaning` load (lines 86 and 358). -/

/-- One key run of a column-map main page. -/
structure Run where
  key : Nat
  chain : List UpdateEntry
  rows : List Row
deriving DecidableEq

/-- A column-map main page, as its list of key runs (adjacent runs have
distinct keys). -/
abbrev Page := List Run

/-- `ColumnMapPageModifier::needsCleaning` (ColumnMapPage.cpp lines
353-377), run by run:
* a record with pending updates needs cleaning (lines 357-360);
* if only one version is in the record the page does **not** need cleaning —
  the scan returns false right there (lines 362-365);
* otherwise the record needs cleaning if any but the first version can be
  purged (lines 367-374); else continue with the next key. -/
def needsCleaning (minVersion : Nat) : Page → Bool
  | [] => false
  | g :: rest =>
    if ¬ g.chain.isEmpty then true
    else if g.rows.length ≤ 1 then false
    else if g.rows.tail.any (fun r => r.version < minVersion) then true
    else needsCleaning minVersion rest

/-- The output side of the modifier: `pages` are the sealed fill pages
already in `mPageList`, `cur` the committed runs of the fill page under
construction (up to `mFillEndIdx`), `fillSize` its `mFillSize`.  A fill-page
run carries an empty chain: its rows are freshly built main entries. -/
structure FillState where
  pages : List Page
  cur : Page
  fillSize : Nat
deriving DecidableEq

/-- `flush()` (ColumnMapPage.cpp lines 548-564): seal the fill page under
construction into the page list and start a fresh one. -/
def flushFill (st : FillState) : FillState :=
  { pages := st.pages ++ [st.cur], cur := [], fillSize := 0 }

/-- The record loop of `ColumnMapPageModifier::clean` (ColumnMapPage.cpp
lines 80-259) over the runs of one source page.  On `KeyResult.overflow`
the fill page is flushed and the record restarted from the beginning with a
fresh fill page (lines 101-110, 186-196); a record that overflows even a
fresh fill page would make the code flush an empty page and retry forever
(`flushFillPage` asserts against it, line 567), which the model maps to
`none`. -/
def cleanRuns (ctx : Ctx) (minVersion : Nat) :
    List Run → FillState → Option FillState
  | [], st => some st
  | g :: rest, st =>
    match cleanKey ctx minVersion st.fillSize g.chain g.key g.rows with
    | KeyResult.overflow =>
      match cleanKey ctx minVersion 0 g.chain g.key g.rows with
      | KeyResult.overflow => none
      | KeyResult.invalidated => cleanRuns ctx minVersion rest (flushFill st)
      | KeyResult.ok emits fs =>
          cleanRuns ctx minVersion rest
            { pages := (flushFill st).pages
              cur := [⟨g.key, [], emits⟩]
              fillSize := fs }
    | KeyResult.invalidated => cleanRuns ctx minVersion rest st
    | KeyResult.ok emits fs =>
        cleanRuns ctx minVersion rest
          { pages := st.pages, cur := st.cur ++ [⟨g.key, [], emits⟩], fillSize := fs }

/-- `ColumnMapPageModifier::clean` (ColumnMapPage.cpp lines 67-270): a page
that does not need cleaning is put on the page list unmodified and `clean`
returns false (lines 68-71); otherwise the record loop runs and `clean`
returns true. -/
def clean (ctx : Ctx) (minVersion : Nat) (page : Page) (st : FillState) :
    Bool × Option FillState :=
  if ¬ needsCleaning minVersion page then
    (false, some { st with pages := st.pages ++ [page] })
  else
    (true, cleanRuns ctx minVersion page st)

/-! ### Size accounting

The bytes a chain entry or main row accounts against `MAX_DATA_SIZE`. -/

/-- Bytes one main row accounts: `entryOverhead` plus `fixedSize` for a
tombstone (lines 157, 178) or `sizes[i]` for a data row (line 181). -/
def rowAccount (ctx : Ctx) (r : Row) : Nat :=
  ctx.entryOverhead + (if r.size = 0 then ctx.fixedSize else r.size)

/-- Bytes a list of main rows accounts in total. -/
def rowsAccount (ctx : Ctx) : List Row → Nat
  | [] => 0
  | r :: rest => rowAccount ctx r + rowsAccount ctx rest

/-- Bytes one update-chain entry accounts: `entryOverhead` plus `fixedSize`
for a delete (lines 413, 436) or the payload for a data entry (line 439). -/
def updAccount (ctx : Ctx) (e : UpdateEntry) : Nat :=
  ctx.entryOverhead + (if e.isDelete then ctx.fixedSize else e.dataSize)

/-- Bytes an update chain accounts in total. -/
def chainAccount (ctx : Ctx) : List UpdateEntry → Nat
  | [] => 0
  | e :: rest => updAccount ctx e + chainAccount ctx rest

/-- An upper bound on the bytes one record can ever put into a fresh fill
page: all of its update chain plus all of its main rows. -/
def runAccount (ctx : Ctx) (g : Run) : Nat :=
  chainAccount ctx g.chain + rowsAccount ctx g.rows

/-! ### Invalidation retry (claim C4)

When nothing is emitted for a key, `clean` CASes the record's `newest` from
the head it loaded to `NewestPointerTag::INVALID` and removes the key from
the hash table (lines 117-126 and 214-221).  A failed CAS means a new delta
arrived; `clean` then re-runs the record from the start (`continue` with
`i == baseIdx`, lines 121-123 and 217-218), loading `newest` afresh
(line 86).  The successive values the record's `newest` takes are given as a
schedule: the chain processed first, then one freshly loaded chain per
failed CAS; a finite schedule means the interference stops. -/

/-- A hash-table operation posted through the `Modifier`
(`mMainTableModifier`). -/
inductive IndexOp where
  /-- `mMainTableModifier.remove(entries[baseIdx].key)` (lines 125, 220). -/
  | remove (key : Nat)
  /-- `mMainTableModifier.insert(entries[baseIdx].key, fillEntry, true)`
  (lines 134, 226). -/
  | insert (key : Nat)
deriving DecidableEq

/-- Outcome of processing one record to completion. -/
inductive RetryOutcome where
  /-- The record's `newest` was CASed from `finalChain` to
  `NewestPointerTag::INVALID` and the key removed from the hash table. -/
  | invalidated (finalChain : List UpdateEntry) (op : IndexOp)
  /-- Rows were emitted: a pointer action was recorded and the key
  (re-)inserted into the hash table. -/
  | published (emits : List Row) (fillSize : Nat) (op : IndexOp)
deriving DecidableEq

/-- The record loop of `clean` for one key, with the CAS on `newest`
resolved against the interference schedule: the CAS to Invalid succeeds iff
no new delta arrived (the schedule is exhausted); otherwise the record
restarts from the beginning on the freshly loaded head.  `none` is the
page-overflow case, handled by the flush path of `cleanRuns` and out of
scope here. -/
def cleanKeyRetry (ctx : Ctx) (minVersion fillSize0 key : Nat)
    (rows : List Row) : List UpdateEntry → List (List UpdateEntry) →
    Option RetryOutcome
  | chain, [] =>
    match cleanKey ctx minVersion fillSize0 chain key rows with
    | KeyResult.overflow => none
    | KeyResult.ok emits fs =>
        some (RetryOutcome.published emits fs (IndexOp.insert key))
    | KeyResult.invalidated =>
        -- no further delta arrived: the CAS to Invalid succeeds
        some (RetryOutcome.invalidated chain (IndexOp.remove key))
  | chain, c :: rest =>
    match cleanKey ctx minVersion fillSize0 chain key rows with
    | KeyResult.overflow => none
    | KeyResult.ok emits fs =>
        some (RetryOutcome.published emits fs (IndexOp.insert key))
    | KeyResult.invalidated =>
        -- the CAS failed: reload `newest` (`c`) and restart the record
        cleanKeyRetry ctx minVersion fillSize0 key rows c rest

/-! ### Read path over fill-page rows (claim C2)

The MVCC read path returns the newest version visible under the snapshot
(§4.4): over the rows of a key run, newest first, that is the first row
whose version is `≤ S.version`. -/

/-- The first row visible under snapshot version `s`, scanning newest
first. -/
def firstVisible (s : Nat) : List Row → Option Row
  | [] => none
  | r :: rest => if r.version ≤ s then some r else firstVisible s rest

/-! ## Theorems -/

/-! ### FixedSizeStack (claims C9, C10) -/

/-- C9 (code_bug evidence).  `FixedSizeStack::empty()` compares `mHead`
against `mVec.size()` — the capacity — instead of `0`.  On a freshly
constructed stack of capacity 1 the stack holds no elements and `pop` fails,
yet `empty()` returns `false`. -/
theorem fixedSizeStack_empty_wrong_on_fresh_stack :
    FixedSizeStack.size (FixedSizeStack.init 1) = 0 ∧
    (FixedSizeStack.pop (FixedSizeStack.init 1)).1 = none ∧
    FixedSizeStack.empty (FixedSizeStack.init 1) = false := by
  decide

/-- Invariants of a run of stack operations: the vector length never
changes, the write head advances by exactly the number of successful pushes,
and that number is bounded by the free write slots. -/
theorem fixedSizeStack_run_writeHead (ops : List FixedSizeStack.Op)
    (s : FixedSizeStack) (hw : s.writeHead ≤ s.vec.length) :
    (FixedSizeStack.run s ops).1.vec.length = s.vec.length ∧
    (FixedSizeStack.run s ops).1.writeHead =
      s.writeHead + (FixedSizeStack.run s ops).2 ∧
    (FixedSizeStack.run s ops).2 ≤ s.vec.length - s.writeHead := by
  induction ops generalizing s with
  | nil => simp [FixedSizeStack.run]
  | cons op rest ih =>
    cases op with
    | push x =>
      by_cases h : s.writeHead = s.vec.length
      · have := ih s hw
        simp [FixedSizeStack.run, FixedSizeStack.push, h] at this ⊢
        omega
      · have := ih { vec := s.vec.set s.writeHead x,
                     head := s.writeHead + 1, writeHead := s.writeHead + 1 }
          (by simp; omega)
        simp [FixedSizeStack.run, FixedSizeStack.push, h] at this ⊢
        omega
    | pop =>
      by_cases h : s.head = 0
      · have := ih s hw
        simp [FixedSizeStack.run, FixedSizeStack.pop, h] at this ⊢
        omega
      · have := ih { s with head := s.head - 1 } hw
        simp [FixedSizeStack.run, FixedSizeStack.pop, h] at this ⊢
        omega

/-- C10.  Over the whole lifetime of a `FixedSizeStack` of capacity `n`
— any sequence of pushes and pops — at most `n` pushes succeed, the final
write head equals the number of successful pushes (it only ever increases;
`pop` never touches it), and once `n` pushes have succeeded every further
push returns false even though elements may have been popped in between. -/
theorem fixedSizeStack_at_most_capacity_pushes (n : Nat)
    (ops : List FixedSizeStack.Op) :
    (FixedSizeStack.run (FixedSizeStack.init n) ops).2 ≤ n ∧
    (FixedSizeStack.run (FixedSizeStack.init n) ops).1.writeHead =
      (FixedSizeStack.run (FixedSizeStack.init n) ops).2 ∧
    ((FixedSizeStack.run (FixedSizeStack.init n) ops).2 = n → ∀ x,
      (FixedSizeStack.push
        (FixedSizeStack.run (FixedSizeStack.init n) ops).1 x).1 = false) := by
  obtain ⟨hlen, hwh, hle⟩ :=
    fixedSizeStack_run_writeHead ops (FixedSizeStack.init n)
      (by simp [FixedSizeStack.init])
  have hlen' : (FixedSizeStack.run (FixedSizeStack.init n) ops).1.vec.length = n := by
    simpa [FixedSizeStack.init] using hlen
  have hwh' : (FixedSizeStack.run (FixedSizeStack.init n) ops).1.writeHead =
      (FixedSizeStack.run (FixedSizeStack.init n) ops).2 := by
    simpa [FixedSizeStack.init] using hwh
  have hle' : (FixedSizeStack.run (FixedSizeStack.init n) ops).2 ≤ n := by
    simpa [FixedSizeStack.init] using hle
  refine ⟨hle', hwh', ?_⟩
  intro hc x
  simp [FixedSizeStack.push, hlen', hwh', hc]

/-- Witness for C10: with capacity 1, after a push, a pop and another push
attempt, exactly one push succeeded and a further push fails. -/
theorem fixedSizeStack_at_most_capacity_pushes_witness :
    (FixedSizeStack.run (FixedSizeStack.init 1)
        [FixedSizeStack.Op.push 7, FixedSizeStack.Op.pop,
         FixedSizeStack.Op.push 8]).2 = 1 ∧
    ∀ x, (FixedSizeStack.push
        (FixedSizeStack.run (FixedSizeStack.init 1)
          [FixedSizeStack.Op.push 7, FixedSizeStack.Op.pop,
           FixedSizeStack.Op.push 8]).1 x).1 = false :=
  ⟨by decide,
   (fixedSizeStack_at_most_capacity_pushes 1
      [FixedSizeStack.Op.push 7, FixedSizeStack.Op.pop,
       FixedSizeStack.Op.push 8]).2.2 (by decide)⟩

/-! ### handleSnapshot (claim C8) -/

/-- C8 (counterexample).  The claim's error condition is not equivalent to
the code: a request with the `cached` flag clear that carries a descriptor
whose version happens to sit in the per-connection cache is *executed* by
`handleSnapshot` (the cache is not consulted), while the claim's third
disjunct calls it invalid.  Concretely: `cached = false`,
`hasDescriptor = true`, version 5, cache `[5]`. -/
theorem handleSnapshot_claim_counterexample :
    ¬ ((handleSnapshot false true 5 [5] = SnapshotOutcome.errorInvalidSnapshot) ↔
        claimedInvalidCondition false true 5 [5]) := by
  decide

/-- C8 (amended).  `handleSnapshot` answers invalid-snapshot exactly when
the request provides neither a cached version nor a descriptor, or names a
cached version absent from the cache, or asks for the descriptor it sends to
be cached (`cached` flag set) while its version is already present; in all
other cases the operation runs with the resolved snapshot: the cached
snapshot when only the cached version was named, the freshly deserialized
descriptor otherwise (added to the cache exactly when the `cached` flag is
set). -/
theorem handleSnapshot_invalid_iff (cached hasDescriptor : Bool)
    (version : Nat) (cache : List Nat) :
    (handleSnapshot cached hasDescriptor version cache =
        SnapshotOutcome.errorInvalidSnapshot ↔
      ((cached = false ∧ hasDescriptor = false) ∨
       (cached = true ∧ hasDescriptor = false ∧ version ∉ cache) ∨
       (cached = true ∧ hasDescriptor = true ∧ version ∈ cache))) ∧
    (cached = true → hasDescriptor = false → version ∈ cache →
      handleSnapshot cached hasDescriptor version cache =
        SnapshotOutcome.run (SnapshotSource.cachedSnapshot version) cache) ∧
    (cached = true → hasDescriptor = true → version ∉ cache →
      handleSnapshot cached hasDescriptor version cache =
        SnapshotOutcome.run (SnapshotSource.newSnapshot version)
          (version :: cache)) ∧
    (cached = false → hasDescriptor = true →
      handleSnapshot cached hasDescriptor version cache =
        SnapshotOutcome.run (SnapshotSource.newSnapshot version) cache) := by
  cases cached <;> cases hasDescriptor <;>
    by_cases h : version ∈ cache <;>
      simp [handleSnapshot, h]

/-- Witness for the amended C8: naming cached version 5 with cache `[5]`
resolves to the cached snapshot. -/
theorem handleSnapshot_invalid_iff_witness :
    handleSnapshot true false 5 [5] =
      SnapshotOutcome.run (SnapshotSource.cachedSnapshot 5) [5] :=
  (handleSnapshot_invalid_iff true false 5 [5]).2.1 rfl rfl (by decide)

/-! ### revert (claim C7) -/

/-- Any result of the read path comes from a chain entry that is neither
reverted nor deleted and is visible under the snapshot. -/
theorem getVisible_mem (s : Nat) (l : List LogVersion) (r : Nat × Nat)
    (h : getVisible s l = some r) :
    ∃ x ∈ l, x.reverted = false ∧ x.version ≤ s ∧ x.deleted = false ∧
      r = (x.version, x.payload) := by
  induction l with
  | nil => simp [getVisible] at h
  | cons e rest ih =>
    simp only [getVisible] at h
    split at h
    · obtain ⟨x, hx, hprops⟩ := ih h
      exact ⟨x, List.mem_cons_of_mem _ hx, hprops⟩
    next hrev =>
      split at h
      next hvis =>
        split at h
        · exact absurd h (by simp)
        next hdel =>
          injection h with h
          exact ⟨e, List.mem_cons_self e rest, by simp_all, hvis,
            by simp_all, h.symm⟩
      next hvis =>
        obtain ⟨x, hx, hprops⟩ := ih h
        exact ⟨x, List.mem_cons_of_mem _ hx, hprops⟩

/-- Marking version `v` reverted leaves entries at other versions
untouched. -/
theorem revertVersion_map_id (v : Nat) (l : List LogVersion)
    (h : ∀ x ∈ l, x.version ≠ v) :
    l.map (fun e => if e.version = v then { e with reverted := true } else e)
      = l := by
  induction l with
  | nil => rfl
  | cons e rest ih =>
    have he : e.version ≠ v := h e (List.mem_cons_self e rest)
    simp only [List.map_cons, if_neg he]
    rw [ih fun x hx => h x (List.mem_cons_of_mem _ hx)]

/-- C7 (spec-modelled).  After `revert` at version `v`: no read under any
snapshot ever returns version `v`; if `v` was the newest version of the
chain, a read under any later snapshot behaves exactly like a read of the
predecessor chain, whose results all carry a version `< v`; and `revert`
reports failure when the chain has nothing at version `v` to revert. -/
theorem revert_skips_reverted_version (v s : Nat) :
    (∀ chain r, getVisible s (revertVersion chain v).1 = some r → r.1 ≠ v) ∧
    (∀ e rest, e.version = v → (∀ x ∈ rest, x.version < v) →
      getVisible s (revertVersion (e :: rest) v).1 = getVisible s rest ∧
      ∀ r, getVisible s rest = some r → r.1 < v) ∧
    (∀ chain, (∀ x ∈ chain, x.version ≠ v) →
      (revertVersion chain v).2 = false) := by
  refine ⟨?_, ?_, ?_⟩
  · intro chain r h
    obtain ⟨x, hx, hrev, _, _, hr⟩ := getVisible_mem s _ r h
    obtain ⟨y, _, hy⟩ := List.mem_map.mp hx
    intro hrv
    by_cases hyv : y.version = v
    · rw [if_pos hyv] at hy
      rw [← hy] at hrev
      simp at hrev
    · rw [if_neg hyv] at hy
      rw [hr] at hrv
      simp only at hrv
      rw [← hy] at hrv
      exact hyv hrv
  · intro e rest hev hpred
    have hmap : rest.map
        (fun x => if x.version = v then { x with reverted := true } else x)
          = rest :=
      revertVersion_map_id v rest fun x hx => Nat.ne_of_lt (hpred x hx)
    constructor
    · simp only [revertVersion, List.map_cons, if_pos hev, hmap]
      simp [getVisible]
    · intro r hr
      obtain ⟨x, hx, _, _, _, hreq⟩ := getVisible_mem s rest r hr
      rw [hreq]
      exact hpred x hx
  · intro chain h
    simp only [revertVersion, List.any_eq_false, beq_iff_eq]
    exact h

/-- Witness for C7: reverting version 50 at the head of a two-version chain
makes a read at snapshot 60 see exactly the predecessor chain. -/
theorem revert_skips_reverted_version_witness :
    getVisible 60
        (revertVersion [⟨50, false, false, 100⟩, ⟨40, false, false, 99⟩] 50).1
      = getVisible 60 [⟨40, false, false, 99⟩] ∧
    ∀ r, getVisible 60 [(⟨40, false, false, 99⟩ : LogVersion)] = some r →
      r.1 < 50 :=
  (revert_skips_reverted_version 50 60).2.1 ⟨50, false, false, 100⟩
    [⟨40, false, false, 99⟩] rfl (by decide)

/-! ### The publish loop (claim C1) -/

/-- A CAS whose expected value matches succeeds immediately. -/
theorem publishPointerAction_self (sched : List Chain) (c d : Chain) :
    publishPointerAction c c d sched = (c, d) := by
  cases sched <;> simp [publishPointerAction]

/-- When the first CAS fails, the loop ends with the new entry's `newest`
equal to the final observed chain, which extends the chain observed at the
failure. -/
theorem publishPointerAction_ne (sched : List Chain) :
    ∀ cur expected d, cur ≠ expected → SchedExtends cur sched →
    (publishPointerAction cur expected d sched).2 =
      (publishPointerAction cur expected d sched).1 ∧
    cur <:+ (publishPointerAction cur expected d sched).1 := by
  induction sched with
  | nil =>
    intro cur expected d h _
    simp [publishPointerAction, h]
  | cons hd rest ih =>
    intro cur expected d h hsch
    cases hsch with
    | cons hext hrest =>
      have hunfold : publishPointerAction cur expected d (hd :: rest) =
          publishPointerAction hd cur cur rest := by
        simp [publishPointerAction, h]
      by_cases hhc : hd = cur
      · subst hhc
        rw [hunfold, publishPointerAction_self]
        exact ⟨rfl, List.suffix_refl _⟩
      · obtain ⟨h2, hsfx⟩ := ih hd cur cur hhc hrest
        rw [hunfold]
        exact ⟨h2, hext.trans hsfx⟩

/-- C1.  The publish loop of `flushFillPage` carries the delta chain
forward: whatever interference concurrent writers cause (each prepending
updates to the source record's `newest`), the loop terminates having
installed the new main entry, and every update that arrived at the source
record during compaction — every entry of the final observed chain that was
not in the snapshotted head `s0` — is reachable from the new record's
`newest`.  No write is lost. -/
theorem publish_loop_no_write_lost (s0 cur d0 : Chain) (sched : List Chain)
    (hobs : s0 <:+ cur) (hsched : SchedExtends cur sched) :
    s0 <:+ (publishPointerAction cur s0 d0 sched).1 ∧
    ∀ x ∈ (publishPointerAction cur s0 d0 sched).1, x ∉ s0 →
      x ∈ (publishPointerAction cur s0 d0 sched).2 := by
  by_cases h : cur = s0
  · subst h
    rw [publishPointerAction_self]
    exact ⟨List.suffix_refl _, fun x hx hnx => absurd hx hnx⟩
  · obtain ⟨h2, hsfx⟩ := publishPointerAction_ne sched cur s0 d0 h hsched
    exact ⟨hobs.trans hsfx, fun x hx _ => h2 ▸ hx⟩

/-- Witness for C1: head `[1]` snapshotted, update 2 arrives before publish
and update 3 during the CAS loop; both stay reachable from the new
entry's `newest`. -/
theorem publish_loop_no_write_lost_witness :
    ([1] : Chain) <:+ (publishPointerAction [2, 1] [1] [] [[3, 2, 1]]).1 ∧
    ∀ x ∈ (publishPointerAction [2, 1] [1] [] [[3, 2, 1]]).1,
      x ∉ ([1] : Chain) → x ∈ (publishPointerAction [2, 1] [1] [] [[3, 2, 1]]).2 :=
  publish_loop_no_write_lost [1] [2, 1] [] [[3, 2, 1]] ⟨[2], rfl⟩
    (SchedExtends.cons ⟨[3], rfl⟩ (SchedExtends.nil _))

/-! ### processUpdates delete handling (claim C3) -/

/-- C3.  Inside the update-chain loop: a Delete entry at version
`≤ minVersion` stops the chain's processing right there, nothing is emitted
for it and the remaining entries are never examined (lines 431-434); and if
the previously emitted entry was a Delete (`wasDelete`) and the current data
entry's version is strictly below `minVersion`, both are dropped — the
update and fill counters are decremented, the delete's bytes are subtracted
from `mFillSize`, its row disappears from the emitted output — and the
chain's processing stops (lines 418-428). -/
theorem processUpdates_delete_handling (ctx : Ctx) (minVersion key : Nat)
    (st : UpdState) (lowest : Nat) (e : UpdateEntry)
    (rest : List UpdateEntry) :
    (e.isDelete = true → e.version ≤ minVersion →
      processUpdates ctx minVersion key st false lowest (e :: rest) =
        UpdResult.ok st (min lowest e.version) false) ∧
    (e.version < minVersion →
      processUpdates ctx minVersion key st true lowest (e :: rest) =
        UpdResult.ok
          { updateIdx := st.updateIdx - 1
            fillIdx := st.fillIdx - 1
            fillSize := st.fillSize - (ctx.entryOverhead + ctx.fixedSize)
            emits := st.emits.dropLast }
          (min lowest e.version) false) := by
  constructor
  · intro hdel hle
    simp [processUpdates, hdel, hle]
  · intro hlt
    simp [processUpdates, hlt]

/-- Witness for C3: a pending delete at version 50 followed by a data entry
at version 5 < minVersion 10 cancels the pair; the delete's row leaves the
output and its 8 + 16 bytes are given back. -/
theorem processUpdates_delete_handling_witness :
    processUpdates ⟨8, 16, 1000⟩ 10 1 ⟨2, 3, 100, [⟨1, 50, 0⟩]⟩ true 50
        [⟨5, false, 24⟩] =
      UpdResult.ok ⟨1, 2, 76, []⟩ 5 false := by
  have h := (processUpdates_delete_handling ⟨8, 16, 1000⟩ 10 1
      ⟨2, 3, 100, [⟨1, 50, 0⟩]⟩ 50 ⟨5, false, 24⟩ []).2 (by decide)
  simpa using h

/-! ### Size accounting of the compactor (claim C5) -/

/-- `processUpdates` reports a full page only when the accumulated fill size
plus what the remaining chain could at most account exceeds
`MAX_DATA_SIZE`. -/
theorem processUpdates_full_account (ctx : Ctx) (minVersion key : Nat) :
    ∀ (chain : List UpdateEntry) (st : UpdState) (wd : Bool) (lowest : Nat),
    processUpdates ctx minVersion key st wd lowest chain = UpdResult.full →
    ctx.maxDataSize < st.fillSize + chainAccount ctx chain := by
  intro chain
  induction chain with
  | nil => intro st wd lowest h; simp [processUpdates] at h
  | cons e rest ih =>
    intro st wd lowest h
    simp only [processUpdates] at h
    split at h
    · exact absurd h (by simp)
    next hwd =>
      split at h
      next hdel =>
        split at h
        · exact absurd h (by simp)
        next hgt =>
          split at h
          next hfull =>
            simp [chainAccount, updAccount, hdel]
            omega
          next hfit =>
            have := ih _ _ _ h
            simp [chainAccount, updAccount, hdel] at this ⊢
            omega
      next hdel =>
        split at h
        next hfull =>
          simp [chainAccount, updAccount, hdel]
          omega
        next hfit =>
          split at h
          · exact absurd h (by simp)
          · have := ih _ _ _ h
            simp [chainAccount, updAccount, hdel] at this ⊢
            omega

/-- The main-copy loop runs over `MAX_DATA_SIZE` only when the accumulated
fill size plus what the remaining rows could at most account exceeds it. -/
theorem copyMain_full_account (ctx : Ctx) (minVersion key : Nat) :
    ∀ (rows : List Row) (st : UpdState) (wd : Bool) (copied : Nat),
    copyMain ctx minVersion key st wd copied rows = CopyResult.full →
    ctx.maxDataSize < st.fillSize + rowsAccount ctx rows := by
  intro rows
  induction rows with
  | nil => intro st wd copied h; simp [copyMain] at h
  | cons r rest ih =>
    intro st wd copied h
    simp only [copyMain] at h
    split at h
    · exact absurd h (by simp)
    next hwd =>
      split at h
      next hz =>
        split at h
        · exact absurd h (by simp)
        next hgt =>
          split at h
          next hfull =>
            simp [rowsAccount, rowAccount, hz]
            omega
          next hfit =>
            have := ih _ _ _ h
            simp [rowsAccount, rowAccount, hz] at this ⊢
            omega
      next hz =>
        split at h
        next hfull =>
          simp [rowsAccount, rowAccount, hz]
          omega
        next hfit =>
          split at h
          · exact absurd h (by simp)
          · have := ih _ _ _ h
            simp [rowsAccount, rowAccount, hz] at this ⊢
            omega

/-- On success, the fill size grows by at most what the chain accounts, and
never past `MAX_DATA_SIZE` unless it already was. -/
theorem processUpdates_ok_fillSize_le (ctx : Ctx) (minVersion key : Nat) :
    ∀ (chain : List UpdateEntry) (st : UpdState) (wd : Bool) (lowest : Nat)
      (st' : UpdState) (l' : Nat) (wd' : Bool),
    processUpdates ctx minVersion key st wd lowest chain =
      UpdResult.ok st' l' wd' →
    st'.fillSize ≤ st.fillSize + chainAccount ctx chain ∧
    (st'.fillSize ≤ ctx.maxDataSize ∨ st'.fillSize ≤ st.fillSize) := by
  intro chain
  induction chain with
  | nil =>
    intro st wd lowest st' l' wd' h
    simp only [processUpdates, UpdResult.ok.injEq] at h
    obtain ⟨h1, _, _⟩ := h
    subst h1
    exact ⟨Nat.le_add_right _ _, Or.inr le_rfl⟩
  | cons e rest ih =>
    intro st wd lowest st' l' wd' h
    simp only [processUpdates] at h
    split at h
    · simp only [UpdResult.ok.injEq] at h
      obtain ⟨h1, _, _⟩ := h
      subst h1
      simp only [chainAccount]
      exact ⟨by omega, Or.inr (by omega)⟩
    next hwd =>
      split at h
      next hdel =>
        split at h
        · simp only [UpdResult.ok.injEq] at h
          obtain ⟨h1, _, _⟩ := h
          subst h1
          exact ⟨Nat.le_add_right _ _, Or.inr le_rfl⟩
        next hgt =>
          split at h
          · exact absurd h (by simp)
          next hfit =>
            obtain ⟨ha, hb⟩ := ih _ _ _ _ _ _ h
            simp [chainAccount, updAccount, hdel] at ha hb hfit ⊢
            constructor
            · omega
            · rcases hb with hb | hb
              · exact Or.inl hb
              · exact Or.inl (by omega)
      next hdel =>
        split at h
        · exact absurd h (by simp)
        next hfit =>
          split at h
          · simp only [UpdResult.ok.injEq] at h
            obtain ⟨h1, _, _⟩ := h
            subst h1
            simp [chainAccount, updAccount, hdel] at hfit ⊢
            omega
          · obtain ⟨ha, hb⟩ := ih _ _ _ _ _ _ h
            simp [chainAccount, updAccount, hdel] at ha hb hfit ⊢
            constructor
            · omega
            · rcases hb with hb | hb
              · exact Or.inl hb
              · exact Or.inl (by omega)

/-- Same bounds for the main-copy loop. -/
theorem copyMain_ok_fillSize_le (ctx : Ctx) (minVersion key : Nat) :
    ∀ (rows : List Row) (st : UpdState) (wd : Bool) (copied : Nat)
      (st' : UpdState),
    copyMain ctx minVersion key st wd copied rows = CopyResult.ok st' →
    st'.fillSize ≤ st.fillSize + rowsAccount ctx rows ∧
    (st'.fillSize ≤ ctx.maxDataSize ∨ st'.fillSize ≤ st.fillSize) := by
  intro rows
  induction rows with
  | nil =>
    intro st wd copied st' h
    simp only [copyMain, CopyResult.ok.injEq] at h
    subst h
    exact ⟨Nat.le_add_right _ _, Or.inr le_rfl⟩
  | cons r rest ih =>
    intro st wd copied st' h
    simp only [copyMain] at h
    split at h
    · simp only [CopyResult.ok.injEq] at h
      subst h
      simp only [rowsAccount]
      exact ⟨by omega, Or.inr (by omega)⟩
    next hwd =>
      split at h
      next hz =>
        split at h
        · simp only [CopyResult.ok.injEq] at h
          subst h
          exact ⟨Nat.le_add_right _ _, Or.inr le_rfl⟩
        next hgt =>
          split at h
          · exact absurd h (by simp)
          next hfit =>
            obtain ⟨ha, hb⟩ := ih _ _ _ _ h
            simp [rowsAccount, rowAccount, hz] at ha hb hfit ⊢
            constructor
            · omega
            · rcases hb with hb | hb
              · exact Or.inl hb
              · exact Or.inl (by omega)
      next hz =>
        split at h
        · exact absurd h (by simp)
        next hfit =>
          split at h
          · simp only [CopyResult.ok.injEq] at h
            subst h
            simp [rowsAccount, rowAccount, hz] at hfit ⊢
            omega
          · obtain ⟨ha, hb⟩ := ih _ _ _ _ h
            simp [rowsAccount, rowAccount, hz] at ha hb hfit ⊢
            constructor
            · omega
            · rcases hb with hb | hb
              · exact Or.inl hb
              · exact Or.inl (by omega)

/-- Skipping shadowed rows can only shrink the accounted bytes. -/
theorem rowsAccount_dropWhile_le (ctx : Ctx) (p : Row → Bool) :
    ∀ rows : List Row,
    rowsAccount ctx (rows.dropWhile p) ≤ rowsAccount ctx rows := by
  intro rows
  induction rows with
  | nil => simp [List.dropWhile]
  | cons r rest ih =>
    by_cases hp : p r
    · simp only [List.dropWhile_cons, hp, if_true, rowsAccount]
      omega
    · simp [List.dropWhile_cons, hp]

/-- A record whose full content fits into `MAX_DATA_SIZE` never overflows a
fresh fill page. -/
theorem cleanKey_fresh_no_overflow (ctx : Ctx) (minVersion key : Nat)
    (chain : List UpdateEntry) (rows : List Row)
    (hfit : runAccount ctx ⟨key, chain, rows⟩ ≤ ctx.maxDataSize) :
    cleanKey ctx minVersion 0 chain key rows ≠ KeyResult.overflow := by
  intro h
  cases chain with
  | nil =>
    simp only [cleanKey] at h
    rcases hc : copyMain ctx minVersion key ⟨0, 0, 0, []⟩ false 0 rows with _ | st
    · have hacc := copyMain_full_account ctx minVersion key rows _ _ _ hc
      simp only [runAccount, chainAccount] at hfit
      simp only at hacc
      omega
    · rw [hc] at h
      split at h
      · rename_i heq; cases heq
      · rename_i st2 heq
        cases heq
        split at h <;> simp at h
  | cons e c =>
    simp only [cleanKey] at h
    rcases hp : processUpdates ctx minVersion key ⟨0, 0, 0, []⟩ false UINT64MAX
        (e :: c) with _ | ⟨st1, l, wdl⟩
    · have hacc := processUpdates_full_account ctx minVersion key (e :: c) _ _ _ hp
      simp only [runAccount] at hfit
      simp only at hacc
      omega
    · rw [hp] at h
      by_cases hl : l ≤ minVersion
      · simp only [hl, if_true] at h
        split at h <;> simp at h
      · simp only [hl, if_false] at h
        rcases hc : copyMain ctx minVersion key st1 wdl 0
            (rows.dropWhile (fun r => l ≤ r.version)) with _ | st2
        · have hacc := copyMain_full_account ctx minVersion key _ _ _ _ hc
          have hb := (processUpdates_ok_fillSize_le ctx minVersion key
            (e :: c) _ _ _ _ _ _ hp).1
          have hd := rowsAccount_dropWhile_le ctx
            (fun r => decide (l ≤ r.version)) rows
          simp only [runAccount] at hfit
          simp only at hacc hb
          omega
        · rw [hc] at h
          split at h
          · rename_i heq; cases heq
          · rename_i st3 heq
            cases heq
            split at h <;> simp at h

/-- C5.  Page overflow is handled entirely inside `clean`/`processUpdates`:
whenever emitting would raise `mFillSize` above `MAX_DATA_SIZE`
(`KeyResult.overflow`, from the checks at lines 443-446 and 185-196), the
record loop flushes the fill page under construction, starts a fresh one and
restarts the in-progress record from its beginning; and as long as every
record of the page fits a fresh fill page by itself, the loop always runs to
completion — overflow never escapes to the caller. -/
theorem clean_overflow_handled_internally (ctx : Ctx) (minVersion : Nat) :
    (∀ (g : Run) (rest : List Run) (st : FillState),
      cleanKey ctx minVersion st.fillSize g.chain g.key g.rows =
        KeyResult.overflow →
      (∀ emits fs, cleanKey ctx minVersion 0 g.chain g.key g.rows =
          KeyResult.ok emits fs →
        cleanRuns ctx minVersion (g :: rest) st =
          cleanRuns ctx minVersion rest
            { pages := st.pages ++ [st.cur]
              cur := [⟨g.key, [], emits⟩]
              fillSize := fs }) ∧
      (cleanKey ctx minVersion 0 g.chain g.key g.rows =
          KeyResult.invalidated →
        cleanRuns ctx minVersion (g :: rest) st =
          cleanRuns ctx minVersion rest
            { pages := st.pages ++ [st.cur], cur := [], fillSize := 0 })) ∧
    (∀ (runs : List Run) (st : FillState),
      (∀ g ∈ runs, runAccount ctx g ≤ ctx.maxDataSize) →
      (cleanRuns ctx minVersion runs st).isSome = true) := by
  constructor
  · intro g rest st h
    constructor
    · intro emits fs h2
      simp [cleanRuns, h, h2, flushFill]
    · intro h2
      simp [cleanRuns, h, h2, flushFill]
  · intro runs
    induction runs with
    | nil => intro st _; simp [cleanRuns]
    | cons g rest ih =>
      intro st hfit
      have hg := hfit g (List.mem_cons_self g rest)
      have hrest : ∀ x ∈ rest, runAccount ctx x ≤ ctx.maxDataSize :=
        fun x hx => hfit x (List.mem_cons_of_mem _ hx)
      rcases h1 : cleanKey ctx minVersion st.fillSize g.chain g.key g.rows
        with _ | _ | ⟨emits, fs⟩
      · rcases h2 : cleanKey ctx minVersion 0 g.chain g.key g.rows
          with _ | _ | ⟨emits, fs⟩
        · exact absurd h2
            (cleanKey_fresh_no_overflow ctx minVersion g.key g.chain g.rows hg)
        · simp only [cleanRuns, h1, h2]
          exact ih _ hrest
        · simp only [cleanRuns, h1, h2]
          exact ih _ hrest
      · simp only [cleanRuns, h1]
        exact ih _ hrest
      · simp only [cleanRuns, h1]
        exact ih _ hrest

/-- Witness for C5: one record of 16 accounted bytes fits `MAX_DATA_SIZE`
100, so cleaning the page cannot fail. -/
theorem clean_overflow_handled_internally_witness :
    (cleanRuns ⟨8, 16, 100⟩ 10 [⟨1, [], [⟨1, 20, 8⟩]⟩] ⟨[], [], 0⟩).isSome
      = true :=
  (clean_overflow_handled_internally ⟨8, 16, 100⟩ 10).2
    [⟨1, [], [⟨1, 20, 8⟩]⟩] ⟨[], [], 0⟩ (by decide)

/-! ### The shape of a successful per-record result -/

/-- Case analysis of `cleanKey` returning `ok`: either the record had no
pending updates and the whole run went through the main-copy loop, or
`processUpdates` ran first and the main rows were either fully shadowed
(`lowestVersion ≤ mMinVersion`) or partly skipped and then copied. -/
theorem cleanKey_ok_cases (ctx : Ctx) (minVersion f0 key : Nat)
    (chain : List UpdateEntry) (rows : List Row) (emits : List Row) (fs : Nat)
    (h : cleanKey ctx minVersion f0 chain key rows = KeyResult.ok emits fs) :
    emits ≠ [] ∧
    ((chain = [] ∧ ∃ st',
        copyMain ctx minVersion key ⟨0, 0, f0, []⟩ false 0 rows =
          CopyResult.ok st' ∧ st'.emits = emits ∧ st'.fillSize = fs) ∨
     (chain ≠ [] ∧ ∃ st1 l wd,
        processUpdates ctx minVersion key ⟨0, 0, f0, []⟩ false UINT64MAX chain =
          UpdResult.ok st1 l wd ∧
        ((l ≤ minVersion ∧ st1.emits = emits ∧ st1.fillSize = fs) ∨
         (minVersion < l ∧ ∃ st2,
            copyMain ctx minVersion key st1 wd 0
                (rows.dropWhile (fun r => l ≤ r.version)) =
              CopyResult.ok st2 ∧ st2.emits = emits ∧ st2.fillSize = fs)))) := by
  cases chain with
  | nil =>
    simp only [cleanKey] at h
    rcases hc : copyMain ctx minVersion key ⟨0, 0, f0, []⟩ false 0 rows
      with _ | st'
    · rw [hc] at h
      cases h
    · rw [hc] at h
      split at h
      · rename_i heq; cases heq
      next stx heq =>
        cases heq
        split at h
        · cases h
        next hne =>
          injection h with h1 h2
          exact ⟨h1 ▸ hne, Or.inl ⟨rfl, st', rfl, h1, h2⟩⟩
  | cons e c =>
    simp only [cleanKey] at h
    rcases hp : processUpdates ctx minVersion key ⟨0, 0, f0, []⟩ false UINT64MAX
        (e :: c) with _ | ⟨st1, l, wd⟩
    · rw [hp] at h
      cases h
    · rw [hp] at h
      by_cases hl : l ≤ minVersion
      · simp only [hl, if_true] at h
        split at h
        · cases h
        next hne =>
          simp only [KeyResult.ok.injEq] at h
          refine ⟨h.1 ▸ hne, Or.inr ⟨List.cons_ne_nil e c, st1, l, wd, ?_,
            Or.inl ⟨hl, h.1, h.2⟩⟩⟩
          rfl
      · simp only [hl, if_false] at h
        rcases hc : copyMain ctx minVersion key st1 wd 0
            (rows.dropWhile (fun r => l ≤ r.version)) with _ | st2
        · rw [hc] at h
          cases h
        · rw [hc] at h
          split at h
          · rename_i heq; cases heq
          next stx heq =>
            cases heq
            split at h
            · cases h
            next hne =>
              injection h with h1 h2
              refine ⟨h1 ▸ hne, Or.inr ⟨List.cons_ne_nil e c, st1, l, wd, ?_,
                Or.inr ⟨Nat.lt_of_not_le hl, st2, hc, h1, h2⟩⟩⟩
              rfl

/-! ### The floor version is unique (claim C2) -/

/-- Through `processUpdates`, all emitted rows but the last stay strictly
above the low-water mark: an entry at a version `≤ mMinVersion` is only ever
emitted together with an immediate break. -/
theorem processUpdates_floor (ctx : Ctx) (minVersion key : Nat) :
    ∀ (chain : List UpdateEntry) (st : UpdState) (wd : Bool) (lowest : Nat)
      (st' : UpdState) (l' : Nat) (wd' : Bool),
    processUpdates ctx minVersion key st wd lowest chain =
      UpdResult.ok st' l' wd' →
    (∀ x ∈ st.emits, minVersion < x.version) →
    ∀ x ∈ st'.emits.dropLast, minVersion < x.version := by
  intro chain
  induction chain with
  | nil =>
    intro st wd lowest st' l' wd' h hacc
    simp only [processUpdates, UpdResult.ok.injEq] at h
    obtain ⟨h1, _, _⟩ := h
    subst h1
    exact fun x hx => hacc x (List.dropLast_subset _ hx)
  | cons e rest ih =>
    intro st wd lowest st' l' wd' h hacc
    simp only [processUpdates] at h
    split at h
    · simp only [UpdResult.ok.injEq] at h
      obtain ⟨h1, _, _⟩ := h
      subst h1
      exact fun x hx =>
        hacc x (List.dropLast_subset _ (List.dropLast_subset _ hx))
    next hwd =>
      split at h
      next hdel =>
        split at h
        · simp only [UpdResult.ok.injEq] at h
          obtain ⟨h1, _, _⟩ := h
          subst h1
          exact fun x hx => hacc x (List.dropLast_subset _ hx)
        next hgt =>
          split at h
          · cases h
          next hfit =>
            refine ih _ _ _ _ _ _ h ?_
            intro x hx
            rcases List.mem_append.mp hx with hx | hx
            · exact hacc x hx
            · simp only [List.mem_singleton] at hx
              subst hx
              exact Nat.lt_of_not_le hgt
      next hdel =>
        split at h
        · cases h
        next hfit =>
          split at h
          next hle =>
            simp only [UpdResult.ok.injEq] at h
            obtain ⟨h1, _, _⟩ := h
            subst h1
            intro x hx
            simp only [List.dropLast_concat] at hx
            exact hacc x hx
          next hgt =>
            refine ih _ _ _ _ _ _ h ?_
            intro x hx
            rcases List.mem_append.mp hx with hx | hx
            · exact hacc x hx
            · simp only [List.mem_singleton] at hx
              subst hx
              exact Nat.lt_of_not_le hgt

/-- `lowestVersion` only decreases, and every row `processUpdates` emits has
a version at least `lowestVersion`. -/
theorem processUpdates_lowest (ctx : Ctx) (minVersion key : Nat) :
    ∀ (chain : List UpdateEntry) (st : UpdState) (wd : Bool) (lowest : Nat)
      (st' : UpdState) (l' : Nat) (wd' : Bool),
    processUpdates ctx minVersion key st wd lowest chain =
      UpdResult.ok st' l' wd' →
    l' ≤ lowest ∧ ∀ x ∈ st'.emits, x ∈ st.emits ∨ l' ≤ x.version := by
  intro chain
  induction chain with
  | nil =>
    intro st wd lowest st' l' wd' h
    simp only [processUpdates, UpdResult.ok.injEq] at h
    obtain ⟨h1, h2, _⟩ := h
    subst h1
    subst h2
    exact ⟨le_rfl, fun x hx => Or.inl hx⟩
  | cons e rest ih =>
    intro st wd lowest st' l' wd' h
    simp only [processUpdates] at h
    split at h
    · simp only [UpdResult.ok.injEq] at h
      obtain ⟨h1, h2, _⟩ := h
      subst h1
      subst h2
      exact ⟨Nat.min_le_left _ _,
        fun x hx => Or.inl (List.dropLast_subset _ hx)⟩
    next hwd =>
      split at h
      next hdel =>
        split at h
        · simp only [UpdResult.ok.injEq] at h
          obtain ⟨h1, h2, _⟩ := h
          subst h1
          subst h2
          exact ⟨Nat.min_le_left _ _, fun x hx => Or.inl hx⟩
        next hgt =>
          split at h
          · cases h
          next hfit =>
            obtain ⟨hle, hmem⟩ := ih _ _ _ _ _ _ h
            refine ⟨le_trans hle (Nat.min_le_left _ _), ?_⟩
            intro x hx
            rcases hmem x hx with hx' | hx'
            · rcases List.mem_append.mp hx' with hx'' | hx''
              · exact Or.inl hx''
              · simp only [List.mem_singleton] at hx''
                subst hx''
                exact Or.inr (le_trans hle (Nat.min_le_right _ _))
            · exact Or.inr hx'
      next hdel =>
        split at h
        · cases h
        next hfit =>
          split at h
          next hle =>
            simp only [UpdResult.ok.injEq] at h
            obtain ⟨h1, h2, _⟩ := h
            subst h1
            subst h2
            refine ⟨Nat.min_le_left _ _, ?_⟩
            intro x hx
            rcases List.mem_append.mp hx with hx' | hx'
            · exact Or.inl hx'
            · simp only [List.mem_singleton] at hx'
              subst hx'
              exact Or.inr (Nat.min_le_right _ _)
          next hgt =>
            obtain ⟨hle, hmem⟩ := ih _ _ _ _ _ _ h
            refine ⟨le_trans hle (Nat.min_le_left _ _), ?_⟩
            intro x hx
            rcases hmem x hx with hx' | hx'
            · rcases List.mem_append.mp hx' with hx'' | hx''
              · exact Or.inl hx''
              · simp only [List.mem_singleton] at hx''
                subst hx''
                exact Or.inr (le_trans hle (Nat.min_le_right _ _))
            · exact Or.inr hx'

/-- Same floor property for the main-copy loop: survivors are copied until
the first version `≤ mMinVersion`, inclusively, and the copying stops right
there. -/
theorem copyMain_floor (ctx : Ctx) (minVersion key : Nat) :
    ∀ (rows : List Row) (st : UpdState) (wd : Bool) (copied : Nat)
      (st' : UpdState),
    copyMain ctx minVersion key st wd copied rows = CopyResult.ok st' →
    (∀ x ∈ st.emits, minVersion < x.version) →
    ∀ x ∈ st'.emits.dropLast, minVersion < x.version := by
  intro rows
  induction rows with
  | nil =>
    intro st wd copied st' h hacc
    simp only [copyMain, CopyResult.ok.injEq] at h
    subst h
    exact fun x hx => hacc x (List.dropLast_subset _ hx)
  | cons r rest ih =>
    intro st wd copied st' h hacc
    simp only [copyMain] at h
    split at h
    · simp only [CopyResult.ok.injEq] at h
      subst h
      exact fun x hx =>
        hacc x (List.dropLast_subset _ (List.dropLast_subset _ hx))
    next hwd =>
      split at h
      next hz =>
        split at h
        · simp only [CopyResult.ok.injEq] at h
          subst h
          exact fun x hx => hacc x (List.dropLast_subset _ hx)
        next hgt =>
          split at h
          · cases h
          next hfit =>
            refine ih _ _ _ _ h ?_
            intro x hx
            rcases List.mem_append.mp hx with hx | hx
            · exact hacc x hx
            · simp only [List.mem_singleton] at hx
              subst hx
              exact Nat.lt_of_not_le hgt
      next hz =>
        split at h
        · cases h
        next hfit =>
          split at h
          next hle =>
            simp only [CopyResult.ok.injEq] at h
            subst h
            intro x hx
            simp only [List.dropLast_concat] at hx
            exact hacc x hx
          next hgt =>
            refine ih _ _ _ _ h ?_
            intro x hx
            rcases List.mem_append.mp hx with hx | hx
            · exact hacc x hx
            · simp only [List.mem_singleton] at hx
              subst hx
              exact Nat.lt_of_not_le hgt

/-- A result of the read path is a member of the row list and visible under
the snapshot. -/
theorem firstVisible_mem (s : Nat) :
    ∀ (l : List Row) (r : Row),
    firstVisible s l = some r → r ∈ l ∧ r.version ≤ s := by
  intro l
  induction l with
  | nil => intro r h; simp [firstVisible] at h
  | cons x rest ih =>
    intro r h
    simp only [firstVisible] at h
    split at h
    next hle =>
      injection h with h
      subst h
      exact ⟨List.mem_cons_self _ _, hle⟩
    next hgt =>
      obtain ⟨hmem, hle⟩ := ih r h
      exact ⟨List.mem_cons_of_mem _ hmem, hle⟩

/-- C2.  Whatever a record contributes to a fill page, at most one of its
rows sits at or below the low-water mark, and it is the last one (the
"floor"): the copy loop stops inclusively at the first version
`≤ mMinVersion` and the update loop breaks on its first emission at such a
version.  Consequently, a read over the record's new rows can return a
version strictly below `mMinVersion` only for that single floor row. -/
theorem clean_at_most_one_floor_version (ctx : Ctx)
    (minVersion fillSize0 key : Nat) (chain : List UpdateEntry)
    (rows : List Row) (emits : List Row) (fs : Nat)
    (h : cleanKey ctx minVersion fillSize0 chain key rows =
      KeyResult.ok emits fs) :
    (∀ x ∈ emits.dropLast, minVersion < x.version) ∧
    (∀ s r, firstVisible s emits = some r → r.version < minVersion →
      emits.getLast? = some r) := by
  have hfloor : ∀ x ∈ emits.dropLast, minVersion < x.version := by
    obtain ⟨hne, hcases⟩ :=
      cleanKey_ok_cases ctx minVersion fillSize0 key chain rows emits fs h
    rcases hcases with ⟨hchain, st', hc, hemits, _⟩ |
      ⟨hchain, st1, l, wd, hp, hrest⟩
    · subst hemits
      exact copyMain_floor ctx minVersion key rows _ _ _ _ hc (by simp)
    · rcases hrest with ⟨hl, hemits, _⟩ | ⟨hl, st2, hc, hemits, _⟩
      · subst hemits
        exact processUpdates_floor ctx minVersion key chain _ _ _ _ _ _ hp
          (by simp)
      · subst hemits
        refine copyMain_floor ctx minVersion key _ _ _ _ _ hc ?_
        intro x hx
        rcases (processUpdates_lowest ctx minVersion key chain _ _ _ _ _ _
          hp).2 x hx with hx' | hx'
        · simp at hx'
        · exact Nat.lt_of_lt_of_le hl hx'
  refine ⟨hfloor, ?_⟩
  intro s r hfv hlt
  obtain ⟨hmem, _⟩ := firstVisible_mem s emits r hfv
  have hne : emits ≠ [] := by
    intro he
    subst he
    simp at hmem
  have hdecomp := List.dropLast_concat_getLast hne
  rw [← hdecomp] at hmem
  rcases List.mem_append.mp hmem with hx | hx
  · exact absurd (hfloor r hx) (Nat.not_lt.mpr (Nat.le_of_lt hlt))
  · simp only [List.mem_singleton] at hx
    rw [hx, List.getLast?_eq_getLast emits hne]

/-- Witness for C2: a record with rows at versions 30 and 5 under
`minVersion = 10` keeps 5 as the single floor row, and a read at snapshot 7
returns exactly that last row. -/
theorem clean_at_most_one_floor_version_witness :
    ([(⟨1, 30, 4⟩ : Row), ⟨1, 5, 4⟩] : List Row).getLast? = some ⟨1, 5, 4⟩ :=
  (clean_at_most_one_floor_version ⟨8, 16, 1000⟩ 10 0 1 []
      [⟨1, 30, 4⟩, ⟨1, 5, 4⟩] [⟨1, 30, 4⟩, ⟨1, 5, 4⟩] 24 (by decide)).2
    7 ⟨1, 5, 4⟩ (by decide) (by decide)

/-! ### Invalidation and CAS retry (claim C4) -/

/-- A record only ever ends up invalidated on the head that was loaded last:
every CAS failure forces a fresh reload and full reprocessing. -/
theorem cleanKeyRetry_invalidated_last (ctx : Ctx) (minVersion f0 key : Nat)
    (rows : List Row) :
    ∀ (sched : List (List UpdateEntry)) (chain fc : List UpdateEntry)
      (op : IndexOp),
    cleanKeyRetry ctx minVersion f0 key rows chain sched =
      some (RetryOutcome.invalidated fc op) →
    cleanKey ctx minVersion f0 fc key rows = KeyResult.invalidated ∧
    (chain :: sched).getLast? = some fc ∧ op = IndexOp.remove key := by
  intro sched
  induction sched with
  | nil =>
    intro chain fc op h
    rcases hk : cleanKey ctx minVersion f0 chain key rows
      with _ | _ | ⟨emits, fs⟩
    · simp [cleanKeyRetry, hk] at h
    · simp only [cleanKeyRetry, hk, Option.some.injEq,
        RetryOutcome.invalidated.injEq] at h
      obtain ⟨h1, h2⟩ := h
      subst h1
      exact ⟨hk, by simp, h2.symm⟩
    · simp [cleanKeyRetry, hk] at h
  | cons c rest ih =>
    intro chain fc op h
    rcases hk : cleanKey ctx minVersion f0 chain key rows
      with _ | _ | ⟨emits, fs⟩
    · simp [cleanKeyRetry, hk] at h
    · simp only [cleanKeyRetry, hk] at h
      obtain ⟨h1, h2, h3⟩ := ih c fc op h
      refine ⟨h1, ?_, h3⟩
      rw [List.getLast?_cons_cons]
      exact h2
    · simp [cleanKeyRetry, hk] at h

/-- C4.  For a key for which compaction emits nothing into the fill page
(`KeyResult.invalidated`), the record's `newest` is CASed from the
snapshotted head to `NewestPointerTag::INVALID` and the key is removed from
the hash table; a failed CAS (a new delta arrived) restarts the key's
processing from the beginning on the freshly loaded head.  Hence
invalidation only ever happens on the last head loaded, a key with rows to
publish is instead re-inserted into the hash table, and the successful CAS
removes exactly this key. -/
theorem clean_empty_key_invalidate_retry (ctx : Ctx) (minVersion f0 key : Nat)
    (rows : List Row) (chain c : List UpdateEntry)
    (sched : List (List UpdateEntry)) :
    (cleanKey ctx minVersion f0 chain key rows = KeyResult.invalidated →
      cleanKeyRetry ctx minVersion f0 key rows chain (c :: sched) =
        cleanKeyRetry ctx minVersion f0 key rows c sched) ∧
    (cleanKey ctx minVersion f0 chain key rows = KeyResult.invalidated →
      cleanKeyRetry ctx minVersion f0 key rows chain [] =
        some (RetryOutcome.invalidated chain (IndexOp.remove key))) ∧
    (∀ emits fs,
      cleanKey ctx minVersion f0 chain key rows = KeyResult.ok emits fs →
      cleanKeyRetry ctx minVersion f0 key rows chain sched =
        some (RetryOutcome.published emits fs (IndexOp.insert key))) ∧
    (∀ fc op,
      cleanKeyRetry ctx minVersion f0 key rows chain sched =
        some (RetryOutcome.invalidated fc op) →
      cleanKey ctx minVersion f0 fc key rows = KeyResult.invalidated ∧
      (chain :: sched).getLast? = some fc ∧ op = IndexOp.remove key) := by
  refine ⟨?_, ?_, ?_, ?_⟩
  · intro h
    simp [cleanKeyRetry, h]
  · intro h
    simp [cleanKeyRetry, h]
  · intro emits fs h
    cases sched <;> simp [cleanKeyRetry, h]
  · intro fc op h
    exact cleanKeyRetry_invalidated_last ctx minVersion f0 key rows
      sched chain fc op h

/-- Witness for C4: a record whose chain is a single delete below the
low-water mark emits nothing; a new delta arriving during the CAS makes the
retry process the fresh head, which again emits nothing, so the record is
invalidated on that last head and removed from the index. -/
theorem clean_empty_key_invalidate_retry_witness :
    cleanKeyRetry ⟨8, 16, 1000⟩ 10 0 1 [⟨1, 4, 7⟩] [⟨5, true, 0⟩]
        [[⟨6, true, 0⟩, ⟨5, true, 0⟩]] =
      some (RetryOutcome.invalidated [⟨6, true, 0⟩, ⟨5, true, 0⟩]
        (IndexOp.remove 1)) := by
  rw [(clean_empty_key_invalidate_retry ⟨8, 16, 1000⟩ 10 0 1 [⟨1, 4, 7⟩]
      [⟨5, true, 0⟩] [⟨6, true, 0⟩, ⟨5, true, 0⟩] []).1 (by decide)]
  exact (clean_empty_key_invalidate_retry ⟨8, 16, 1000⟩ 10 0 1 [⟨1, 4, 7⟩]
      [⟨6, true, 0⟩, ⟨5, true, 0⟩] [] []).2.1 (by decide)

/-! ### Shape invariants of emitted rows (claim C6)

Recompacting a record's output must reproduce it.  The inductions below
track, along both emission loops, the properties of the rows emitted so far:
tombstones sit strictly above the low-water mark, a tombstone row is never
directly followed by a row below the mark (those pairs get cancelled), the
`wasDelete` flag mirrors whether the last emitted row is a tombstone, and
`mFillSize` accounts the emitted rows exactly. -/

/-- Accounting distributes over concatenation. -/
theorem rowsAccount_append (ctx : Ctx) :
    ∀ (l1 l2 : List Row),
    rowsAccount ctx (l1 ++ l2) = rowsAccount ctx l1 + rowsAccount ctx l2 := by
  intro l1 l2
  induction l1 with
  | nil => simp [rowsAccount]
  | cons r rest ih =>
    calc rowsAccount ctx ((r :: rest) ++ l2)
        = rowAccount ctx r + rowsAccount ctx (rest ++ l2) := rfl
      _ = rowAccount ctx r + (rowsAccount ctx rest + rowsAccount ctx l2) := by
          rw [ih]
      _ = (rowAccount ctx r + rowsAccount ctx rest) + rowsAccount ctx l2 := by
          omega
      _ = rowsAccount ctx (r :: rest) + rowsAccount ctx l2 := rfl

/-- A chain of pairwise constraints survives dropping the last element. -/
theorem chain'_dropLast {α : Type} (R : α → α → Prop) (l : List α)
    (h : List.Chain' R l) : List.Chain' R l.dropLast :=
  List.Chain'.prefix h l.dropLast_prefix

/-- Appending a row to a chained row list only needs the new pairwise
constraint against the previous last row. -/
theorem chain'_append_row (minVersion : Nat) (l : List Row) (b : Row)
    (hC : List.Chain' (fun a c => a.size = 0 → minVersion ≤ c.version) l)
    (hlast : ∀ t, l.getLast? = some t → t.size = 0 → minVersion ≤ b.version) :
    List.Chain' (fun a c => a.size = 0 → minVersion ≤ c.version) (l ++ [b]) := by
  rw [List.chain'_append]
  refine ⟨hC, List.chain'_singleton _, ?_⟩
  intro x hx y hy
  simp only [List.head?_cons, Option.mem_def, Option.some.injEq] at hy
  subst hy
  exact hlast x (by simpa using hx)

/-- Invariants threaded through `processUpdates`: tombstones stay above the
low-water mark, no emitted tombstone is directly followed by a row below
it, `mFillSize` accounts the emitted rows exactly, and — while every main
version is still unshadowed (`minVersion < lowestVersion`) — `wasDelete`
mirrors whether the last emitted row is a tombstone. -/
theorem processUpdates_invariants (ctx : Ctx) (minVersion key : Nat) :
    ∀ (chain : List UpdateEntry) (st : UpdState) (wd : Bool) (lowest : Nat)
      (st' : UpdState) (l' : Nat) (wd' : Bool),
    processUpdates ctx minVersion key st wd lowest chain =
      UpdResult.ok st' l' wd' →
    (∀ e ∈ chain, e.isDelete = false → e.dataSize ≠ 0) →
    (∀ x ∈ st.emits, x.size = 0 → minVersion < x.version) →
    List.Chain' (fun a b => a.size = 0 → minVersion ≤ b.version) st.emits →
    (∀ t, st.emits.getLast? = some t → (wd = true ↔ t.size = 0)) →
    (st.emits.getLast? = none → wd = false) →
    rowsAccount ctx st.emits ≤ st.fillSize →
    ((∀ x ∈ st'.emits, x.size = 0 → minVersion < x.version) ∧
     List.Chain' (fun a b => a.size = 0 → minVersion ≤ b.version) st'.emits ∧
     rowsAccount ctx st'.emits ≤ st'.fillSize ∧
     st'.fillSize + rowsAccount ctx st.emits =
       st.fillSize + rowsAccount ctx st'.emits ∧
     (minVersion < l' →
       (∀ t, st'.emits.getLast? = some t → (wd' = true ↔ t.size = 0)) ∧
       (st'.emits.getLast? = none → wd' = false))) := by
  intro chain
  induction chain with
  | nil =>
    intro st wd lowest st' l' wd' h hwf hB hC hK hK0 hA
    simp only [processUpdates, UpdResult.ok.injEq] at h
    obtain ⟨h1, _, h3⟩ := h
    subst h1
    subst h3
    exact ⟨hB, hC, hA, by omega, fun _ => ⟨hK, hK0⟩⟩
  | cons e rest ih =>
    intro st wd lowest st' l' wd' h hwf hB hC hK hK0 hA
    have hwfr : ∀ x ∈ rest, x.isDelete = false → x.dataSize ≠ 0 :=
      fun x hx => hwf x (List.mem_cons_of_mem _ hx)
    simp only [processUpdates] at h
    split at h
    next hcancel =>
      -- pair cancellation: the last emitted row is the delete's tombstone
      simp only [UpdResult.ok.injEq] at h
      obtain ⟨h1, h2, h3⟩ := h
      subst h1
      subst h2
      subst h3
      obtain ⟨hwdt, hvlt⟩ := hcancel
      rcases hlastq : st.emits.getLast? with _ | t
      · exact absurd (hK0 hlastq) (by simp [hwdt])
      · have htz : t.size = 0 := (hK t hlastq).mp hwdt
        have hacct : rowsAccount ctx st.emits =
            rowsAccount ctx st.emits.dropLast +
              (ctx.entryOverhead + ctx.fixedSize) := by
          conv_lhs => rw [← List.dropLast_append_getLast? t hlastq]
          rw [rowsAccount_append]
          simp [rowsAccount, rowAccount, htz]
        have hminr := Nat.min_le_right lowest e.version
        refine ⟨?_, ?_, ?_, ?_, ?_⟩
        · exact fun x hx hxz => hB x (List.dropLast_subset _ hx) hxz
        · exact chain'_dropLast _ _ hC
        · show rowsAccount ctx st.emits.dropLast ≤
              st.fillSize - (ctx.entryOverhead + ctx.fixedSize)
          omega
        · show st.fillSize - (ctx.entryOverhead + ctx.fixedSize) +
              rowsAccount ctx st.emits =
              st.fillSize + rowsAccount ctx st.emits.dropLast
          omega
        · intro hguard
          exact absurd hguard (by omega)
    next hcancel =>
      split at h
      next hdel =>
        split at h
        next hle =>
          -- delete at or below the mark: stop, nothing changes
          simp only [UpdResult.ok.injEq] at h
          obtain ⟨h1, h2, h3⟩ := h
          subst h1
          subst h2
          subst h3
          have hminr := Nat.min_le_right lowest e.version
          exact ⟨hB, hC, hA, by omega, fun hguard =>
            absurd hguard (by omega)⟩
        next hgt =>
          split at h
          · cases h
          next hfit =>
            -- emit the delete's tombstone and continue
            have hr1 : rowsAccount ctx [(⟨key, e.version, 0⟩ : Row)] =
                ctx.entryOverhead + ctx.fixedSize := by
              simp [rowsAccount, rowAccount]
            have hB' : ∀ x ∈ st.emits ++ [(⟨key, e.version, 0⟩ : Row)],
                x.size = 0 → minVersion < x.version := by
              intro x hx hxz
              rcases List.mem_append.mp hx with hx | hx
              · exact hB x hx hxz
              · simp only [List.mem_singleton] at hx
                subst hx
                exact Nat.lt_of_not_le hgt
            have hC' : List.Chain'
                (fun a b => a.size = 0 → minVersion ≤ b.version)
                (st.emits ++ [(⟨key, e.version, 0⟩ : Row)]) := by
              refine chain'_append_row minVersion _ _ hC ?_
              intro t ht htz
              exact Nat.le_of_lt (Nat.lt_of_not_le hgt)
            have hK' : ∀ t : Row,
                (st.emits ++ [(⟨key, e.version, 0⟩ : Row)]).getLast? =
                  some t → ((true : Bool) = true ↔ t.size = 0) := by
              intro t ht
              rw [List.getLast?_concat] at ht
              injection ht with ht
              subst ht
              simp
            have hK0' :
                (st.emits ++ [(⟨key, e.version, 0⟩ : Row)]).getLast? =
                  none → (true : Bool) = false := by
              intro hnone
              rw [List.getLast?_concat] at hnone
              cases hnone
            have hA' : rowsAccount ctx
                (st.emits ++ [(⟨key, e.version, 0⟩ : Row)]) ≤
                st.fillSize + (ctx.entryOverhead + ctx.fixedSize) := by
              rw [rowsAccount_append, hr1]
              omega
            obtain ⟨c1, c2, c3, c4, c5⟩ :=
              ih _ _ _ _ _ _ h hwfr hB' hC' hK' hK0' hA'
            have c4' : st'.fillSize +
                rowsAccount ctx (st.emits ++ [(⟨key, e.version, 0⟩ : Row)]) =
                st.fillSize + (ctx.entryOverhead + ctx.fixedSize) +
                  rowsAccount ctx st'.emits := c4
            rw [rowsAccount_append, hr1] at c4'
            exact ⟨c1, c2, c3, by omega, c5⟩
      next hdel =>
        split at h
        · cases h
        next hfit =>
          have hds : e.dataSize ≠ 0 :=
            hwf e (List.mem_cons_self _ _) (by simpa using hdel)
          have hr1 : rowsAccount ctx [(⟨key, e.version, e.dataSize⟩ : Row)] =
              ctx.entryOverhead + e.dataSize := by
            simp [rowsAccount, rowAccount, hds]
          have hB' : ∀ x ∈ st.emits ++ [(⟨key, e.version, e.dataSize⟩ : Row)],
              x.size = 0 → minVersion < x.version := by
            intro x hx hxz
            rcases List.mem_append.mp hx with hx | hx
            · exact hB x hx hxz
            · simp only [List.mem_singleton] at hx
              subst hx
              simp only at hxz
              exact absurd hxz hds
          have hC' : List.Chain'
              (fun a b => a.size = 0 → minVersion ≤ b.version)
              (st.emits ++ [(⟨key, e.version, e.dataSize⟩ : Row)]) := by
            refine chain'_append_row minVersion _ _ hC ?_
            intro t ht htz
            have hwdt : wd = true := (hK t ht).mpr htz
            have hnl : ¬ e.version < minVersion := fun hc => hcancel ⟨hwdt, hc⟩
            simp only
            omega
          have hK' : ∀ t : Row,
              (st.emits ++ [(⟨key, e.version, e.dataSize⟩ : Row)]).getLast? =
                some t → ((false : Bool) = true ↔ t.size = 0) := by
            intro t ht
            rw [List.getLast?_concat] at ht
            injection ht with ht
            subst ht
            simp [hds]
          have hK0' :
              (st.emits ++ [(⟨key, e.version, e.dataSize⟩ : Row)]).getLast? =
                none → (false : Bool) = false := by
            intro _
            rfl
          have hA' : rowsAccount ctx
              (st.emits ++ [(⟨key, e.version, e.dataSize⟩ : Row)]) ≤
              st.fillSize + (ctx.entryOverhead + e.dataSize) := by
            rw [rowsAccount_append, hr1]
            omega
          split at h
          next hle =>
            -- inclusive final emission of a data entry
            simp only [UpdResult.ok.injEq] at h
            obtain ⟨h1, h2, h3⟩ := h
            subst h1
            subst h2
            subst h3
            have hminr := Nat.min_le_right lowest e.version
            refine ⟨hB', hC', ?_, ?_, fun hguard => absurd hguard (by omega)⟩
            · show rowsAccount ctx
                  (st.emits ++ [(⟨key, e.version, e.dataSize⟩ : Row)]) ≤
                  st.fillSize + (ctx.entryOverhead + e.dataSize)
              exact hA'
            · show st.fillSize + (ctx.entryOverhead + e.dataSize) +
                  rowsAccount ctx st.emits =
                  st.fillSize + rowsAccount ctx
                    (st.emits ++ [(⟨key, e.version, e.dataSize⟩ : Row)])
              rw [rowsAccount_append, hr1]
              omega
          next hgt =>
            obtain ⟨c1, c2, c3, c4, c5⟩ :=
              ih _ _ _ _ _ _ h hwfr hB' hC' hK' hK0' hA'
            have c4' : st'.fillSize + rowsAccount ctx
                (st.emits ++ [(⟨key, e.version, e.dataSize⟩ : Row)]) =
                st.fillSize + (ctx.entryOverhead + e.dataSize) +
                  rowsAccount ctx st'.emits := c4
            rw [rowsAccount_append, hr1] at c4'
            exact ⟨c1, c2, c3, by omega, c5⟩

/-- The same invariants threaded through the main-copy loop (tombstone rows
are only copied above the low-water mark, so no wellformedness of the source
rows is needed). -/
theorem copyMain_invariants (ctx : Ctx) (minVersion key : Nat) :
    ∀ (rows : List Row) (st : UpdState) (wd : Bool) (copied : Nat)
      (st' : UpdState),
    copyMain ctx minVersion key st wd copied rows = CopyResult.ok st' →
    (∀ x ∈ st.emits, x.size = 0 → minVersion < x.version) →
    List.Chain' (fun a b => a.size = 0 → minVersion ≤ b.version) st.emits →
    (∀ t, st.emits.getLast? = some t → (wd = true ↔ t.size = 0)) →
    (st.emits.getLast? = none → wd = false) →
    rowsAccount ctx st.emits ≤ st.fillSize →
    ((∀ x ∈ st'.emits, x.size = 0 → minVersion < x.version) ∧
     List.Chain' (fun a b => a.size = 0 → minVersion ≤ b.version) st'.emits ∧
     rowsAccount ctx st'.emits ≤ st'.fillSize ∧
     st'.fillSize + rowsAccount ctx st.emits =
       st.fillSize + rowsAccount ctx st'.emits) := by
  intro rows
  induction rows with
  | nil =>
    intro st wd copied st' h hB hC hK hK0 hA
    simp only [copyMain, CopyResult.ok.injEq] at h
    subst h
    exact ⟨hB, hC, hA, by omega⟩
  | cons r rest ih =>
    intro st wd copied st' h hB hC hK hK0 hA
    simp only [copyMain] at h
    split at h
    next hcancel =>
      simp only [CopyResult.ok.injEq] at h
      subst h
      obtain ⟨hwdt, hvlt⟩ := hcancel
      rcases hlastq : st.emits.getLast? with _ | t
      · exact absurd (hK0 hlastq) (by simp [hwdt])
      · have htz : t.size = 0 := (hK t hlastq).mp hwdt
        have hacct : rowsAccount ctx st.emits =
            rowsAccount ctx st.emits.dropLast +
              (ctx.entryOverhead + ctx.fixedSize) := by
          conv_lhs => rw [← List.dropLast_append_getLast? t hlastq]
          rw [rowsAccount_append]
          simp [rowsAccount, rowAccount, htz]
        refine ⟨?_, ?_, ?_, ?_⟩
        · exact fun x hx hxz => hB x (List.dropLast_subset _ hx) hxz
        · exact chain'_dropLast _ _ hC
        · show rowsAccount ctx st.emits.dropLast ≤
              st.fillSize - (ctx.entryOverhead + ctx.fixedSize)
          omega
        · show st.fillSize - (ctx.entryOverhead + ctx.fixedSize) +
              rowsAccount ctx st.emits =
              st.fillSize + rowsAccount ctx st.emits.dropLast
          omega
    next hcancel =>
      split at h
      next hz =>
        split at h
        next hle =>
          -- tombstone at or below the mark: stop, drop the rest of the run
          simp only [CopyResult.ok.injEq] at h
          subst h
          exact ⟨hB, hC, hA, by omega⟩
        next hgt =>
          split at h
          · cases h
          next hfit =>
            have hr1 : rowsAccount ctx [(⟨key, r.version, 0⟩ : Row)] =
                ctx.entryOverhead + ctx.fixedSize := by
              simp [rowsAccount, rowAccount]
            have hB' : ∀ x ∈ st.emits ++ [(⟨key, r.version, 0⟩ : Row)],
                x.size = 0 → minVersion < x.version := by
              intro x hx hxz
              rcases List.mem_append.mp hx with hx | hx
              · exact hB x hx hxz
              · simp only [List.mem_singleton] at hx
                subst hx
                exact Nat.lt_of_not_le hgt
            have hC' : List.Chain'
                (fun a b => a.size = 0 → minVersion ≤ b.version)
                (st.emits ++ [(⟨key, r.version, 0⟩ : Row)]) := by
              refine chain'_append_row minVersion _ _ hC ?_
              intro t ht htz
              exact Nat.le_of_lt (Nat.lt_of_not_le hgt)
            have hK' : ∀ t : Row,
                (st.emits ++ [(⟨key, r.version, 0⟩ : Row)]).getLast? =
                  some t → ((true : Bool) = true ↔ t.size = 0) := by
              intro t ht
              rw [List.getLast?_concat] at ht
              injection ht with ht
              subst ht
              simp
            have hK0' :
                (st.emits ++ [(⟨key, r.version, 0⟩ : Row)]).getLast? =
                  none → (true : Bool) = false := by
              intro hnone
              rw [List.getLast?_concat] at hnone
              cases hnone
            have hA' : rowsAccount ctx
                (st.emits ++ [(⟨key, r.version, 0⟩ : Row)]) ≤
                st.fillSize + (ctx.entryOverhead + ctx.fixedSize) := by
              rw [rowsAccount_append, hr1]
              omega
            obtain ⟨c1, c2, c3, c4⟩ := ih _ _ _ _ h hB' hC' hK' hK0' hA'
            have c4' : st'.fillSize +
                rowsAccount ctx (st.emits ++ [(⟨key, r.version, 0⟩ : Row)]) =
                st.fillSize + (ctx.entryOverhead + ctx.fixedSize) +
                  rowsAccount ctx st'.emits := c4
            rw [rowsAccount_append, hr1] at c4'
            exact ⟨c1, c2, c3, by omega⟩
      next hz =>
        split at h
        · cases h
        next hfit =>
          have hr1 : rowsAccount ctx [(⟨key, r.version, r.size⟩ : Row)] =
              ctx.entryOverhead + r.size := by
            simp [rowsAccount, rowAccount, hz]
          have hB' : ∀ x ∈ st.emits ++ [(⟨key, r.version, r.size⟩ : Row)],
              x.size = 0 → minVersion < x.version := by
            intro x hx hxz
            rcases List.mem_append.mp hx with hx | hx
            · exact hB x hx hxz
            · simp only [List.mem_singleton] at hx
              subst hx
              simp only at hxz
              exact absurd hxz hz
          have hC' : List.Chain'
              (fun a b => a.size = 0 → minVersion ≤ b.version)
              (st.emits ++ [(⟨key, r.version, r.size⟩ : Row)]) := by
            refine chain'_append_row minVersion _ _ hC ?_
            intro t ht htz
            have hwdt : wd = true := (hK t ht).mpr htz
            have hnl : ¬ r.version < minVersion := fun hc => hcancel ⟨hwdt, hc⟩
            simp only
            omega
          have hK' : ∀ t : Row,
              (st.emits ++ [(⟨key, r.version, r.size⟩ : Row)]).getLast? =
                some t → ((false : Bool) = true ↔ t.size = 0) := by
            intro t ht
            rw [List.getLast?_concat] at ht
            injection ht with ht
            subst ht
            simp [hz]
          have hK0' :
              (st.emits ++ [(⟨key, r.version, r.size⟩ : Row)]).getLast? =
                none → (false : Bool) = false := by
            intro _
            rfl
          have hA' : rowsAccount ctx
              (st.emits ++ [(⟨key, r.version, r.size⟩ : Row)]) ≤
              st.fillSize + (ctx.entryOverhead + r.size) := by
            rw [rowsAccount_append, hr1]
            omega
          split at h
          next hle =>
            simp only [CopyResult.ok.injEq] at h
            subst h
            refine ⟨hB', hC', ?_, ?_⟩
            · show rowsAccount ctx
                  (st.emits ++ [(⟨key, r.version, r.size⟩ : Row)]) ≤
                  st.fillSize + (ctx.entryOverhead + r.size)
              exact hA'
            · show st.fillSize + (ctx.entryOverhead + r.size) +
                  rowsAccount ctx st.emits =
                  st.fillSize + rowsAccount ctx
                    (st.emits ++ [(⟨key, r.version, r.size⟩ : Row)])
              rw [rowsAccount_append, hr1]
              omega
          next hgt =>
            obtain ⟨c1, c2, c3, c4⟩ := ih _ _ _ _ h hB' hC' hK' hK0' hA'
            have c4' : st'.fillSize + rowsAccount ctx
                (st.emits ++ [(⟨key, r.version, r.size⟩ : Row)]) =
                st.fillSize + (ctx.entryOverhead + r.size) +
                  rowsAccount ctx st'.emits := c4
            rw [rowsAccount_append, hr1] at c4'
            exact ⟨c1, c2, c3, by omega⟩

/-- Every row `processUpdates` emits carries the processed record's key. -/
theorem processUpdates_keys (ctx : Ctx) (minVersion key : Nat) :
    ∀ (chain : List UpdateEntry) (st : UpdState) (wd : Bool) (lowest : Nat)
      (st' : UpdState) (l' : Nat) (wd' : Bool),
    processUpdates ctx minVersion key st wd lowest chain =
      UpdResult.ok st' l' wd' →
    ∀ x ∈ st'.emits, x ∈ st.emits ∨ x.key = key := by
  intro chain
  induction chain with
  | nil =>
    intro st wd lowest st' l' wd' h
    simp only [processUpdates, UpdResult.ok.injEq] at h
    obtain ⟨h1, _, _⟩ := h
    subst h1
    exact fun x hx => Or.inl hx
  | cons e rest ih =>
    intro st wd lowest st' l' wd' h
    simp only [processUpdates] at h
    split at h
    · simp only [UpdResult.ok.injEq] at h
      obtain ⟨h1, _, _⟩ := h
      subst h1
      exact fun x hx => Or.inl (List.dropLast_subset _ hx)
    next hcancel =>
      split at h
      next hdel =>
        split at h
        · simp only [UpdResult.ok.injEq] at h
          obtain ⟨h1, _, _⟩ := h
          subst h1
          exact fun x hx => Or.inl hx
        next hgt =>
          split at h
          · cases h
          next hfit =>
            intro x hx
            rcases ih _ _ _ _ _ _ h x hx with hx' | hx'
            · rcases List.mem_append.mp hx' with hx'' | hx''
              · exact Or.inl hx''
              · simp only [List.mem_singleton] at hx''
                subst hx''
                exact Or.inr rfl
            · exact Or.inr hx'
      next hdel =>
        split at h
        · cases h
        next hfit =>
          split at h
          next hle =>
            simp only [UpdResult.ok.injEq] at h
            obtain ⟨h1, _, _⟩ := h
            subst h1
            intro x hx
            rcases List.mem_append.mp hx with hx' | hx'
            · exact Or.inl hx'
            · simp only [List.mem_singleton] at hx'
              subst hx'
              exact Or.inr rfl
          next hgt =>
            intro x hx
            rcases ih _ _ _ _ _ _ h x hx with hx' | hx'
            · rcases List.mem_append.mp hx' with hx'' | hx''
              · exact Or.inl hx''
              · simp only [List.mem_singleton] at hx''
                subst hx''
                exact Or.inr rfl
            · exact Or.inr hx'

/-- Every row the main-copy loop emits carries the processed record's
key. -/
theorem copyMain_keys (ctx : Ctx) (minVersion key : Nat) :
    ∀ (rows : List Row) (st : UpdState) (wd : Bool) (copied : Nat)
      (st' : UpdState),
    copyMain ctx minVersion key st wd copied rows = CopyResult.ok st' →
    ∀ x ∈ st'.emits, x ∈ st.emits ∨ x.key = key := by
  intro rows
  induction rows with
  | nil =>
    intro st wd copied st' h
    simp only [copyMain, CopyResult.ok.injEq] at h
    subst h
    exact fun x hx => Or.inl hx
  | cons r rest ih =>
    intro st wd copied st' h
    simp only [copyMain] at h
    split at h
    · simp only [CopyResult.ok.injEq] at h
      subst h
      exact fun x hx => Or.inl (List.dropLast_subset _ hx)
    next hcancel =>
      split at h
      next hz =>
        split at h
        · simp only [CopyResult.ok.injEq] at h
          subst h
          exact fun x hx => Or.inl hx
        next hgt =>
          split at h
          · cases h
          next hfit =>
            intro x hx
            rcases ih _ _ _ _ h x hx with hx' | hx'
            · rcases List.mem_append.mp hx' with hx'' | hx''
              · exact Or.inl hx''
              · simp only [List.mem_singleton] at hx''
                subst hx''
                exact Or.inr rfl
            · exact Or.inr hx'
      next hz =>
        split at h
        · cases h
        next hfit =>
          split at h
          next hle =>
            simp only [CopyResult.ok.injEq] at h
            subst h
            intro x hx
            rcases List.mem_append.mp hx with hx' | hx'
            · exact Or.inl hx'
            · simp only [List.mem_singleton] at hx'
              subst hx'
              exact Or.inr rfl
          next hgt =>
            intro x hx
            rcases ih _ _ _ _ h x hx with hx' | hx'
            · rcases List.mem_append.mp hx' with hx'' | hx''
              · exact Or.inl hx''
              · simp only [List.mem_singleton] at hx''
                subst hx''
                exact Or.inr rfl
            · exact Or.inr hx'

/-- Replaying the main-copy loop over a row list that satisfies the output
invariants of a previous compaction emits exactly those rows again: nothing
is cancelled, dropped or cut short. -/
theorem copyMain_replay (ctx : Ctx) (minVersion key : Nat) :
    ∀ (rows : List Row) (st : UpdState) (wd : Bool) (copied : Nat),
    (∀ x ∈ rows.dropLast, minVersion < x.version) →
    (∀ x ∈ rows, x.size = 0 → minVersion < x.version) →
    List.Chain' (fun a b => a.size = 0 → minVersion ≤ b.version) rows →
    (∀ x ∈ rows, x.key = key) →
    (∀ r, rows.head? = some r → wd = true → minVersion ≤ r.version) →
    st.fillSize + rowsAccount ctx rows ≤ ctx.maxDataSize →
    copyMain ctx minVersion key st wd copied rows =
      CopyResult.ok
        { updateIdx := st.updateIdx
          fillIdx := st.fillIdx + rows.length
          fillSize := st.fillSize + rowsAccount ctx rows
          emits := st.emits ++ rows } := by
  intro rows
  induction rows with
  | nil =>
    intro st wd copied hF hB hC hKeys hwd hfit
    simp [copyMain, rowsAccount]
  | cons r rest ih =>
    intro st wd copied hF hB hC hKeys hwd hfit
    have hrkey : r.key = key := hKeys r (List.mem_cons_self _ _)
    have hstep : rowsAccount ctx (r :: rest) =
        rowAccount ctx r + rowsAccount ctx rest := rfl
    have hlen : (r :: rest).length = rest.length + 1 := rfl
    have hnc : ¬ (wd = true ∧ r.version < minVersion) := by
      rintro ⟨hwdt, hlt⟩
      exact absurd (hwd r rfl hwdt) (by omega)
    have hKeys' : ∀ x ∈ rest, x.key = key :=
      fun x hx => hKeys x (List.mem_cons_of_mem _ hx)
    have hB' : ∀ x ∈ rest, x.size = 0 → minVersion < x.version :=
      fun x hx => hB x (List.mem_cons_of_mem _ hx)
    have hC' : List.Chain' (fun a b => a.size = 0 → minVersion ≤ b.version)
        rest := hC.tail
    have hF' : ∀ x ∈ rest.dropLast, minVersion < x.version := by
      intro x hx
      cases rest with
      | nil => simp at hx
      | cons r2 m =>
        refine hF x ?_
        rw [List.dropLast_cons_of_ne_nil (List.cons_ne_nil r2 m)]
        exact List.mem_cons_of_mem _ hx
    simp only [copyMain, if_neg hnc]
    by_cases hz : r.size = 0
    · have hgt : minVersion < r.version := hB r (List.mem_cons_self _ _) hz
      have hra : rowAccount ctx r = ctx.entryOverhead + ctx.fixedSize := by
        simp [rowAccount, hz]
      rw [if_pos hz, if_neg (by omega : ¬ r.version ≤ minVersion),
        if_neg (by omega : ¬ ctx.maxDataSize < st.fillSize +
          (ctx.entryOverhead + ctx.fixedSize))]
      have hrow : (⟨key, r.version, 0⟩ : Row) = r := by
        cases r
        simp_all
      rw [hrow]
      have hwd' : ∀ r2, rest.head? = some r2 → (true : Bool) = true →
          minVersion ≤ r2.version := by
        intro r2 hr2 _
        cases rest with
        | nil => cases hr2
        | cons r3 m =>
          injection hr2 with hr2
          subst hr2
          exact (List.chain'_cons.mp hC).1 hz
      have hfit' : st.fillSize + (ctx.entryOverhead + ctx.fixedSize) +
          rowsAccount ctx rest ≤ ctx.maxDataSize := by
        omega
      rw [ih (⟨st.updateIdx, st.fillIdx + 1,
          st.fillSize + (ctx.entryOverhead + ctx.fixedSize),
          st.emits ++ [r]⟩ : UpdState) true (copied + 1) hF' hB' hC' hKeys'
          hwd' hfit']
      have hrec : (⟨st.updateIdx, st.fillIdx + 1 + rest.length,
          st.fillSize + (ctx.entryOverhead + ctx.fixedSize) +
            rowsAccount ctx rest,
          (st.emits ++ [r]) ++ rest⟩ : UpdState) =
          ⟨st.updateIdx, st.fillIdx + (r :: rest).length,
            st.fillSize + rowsAccount ctx (r :: rest),
            st.emits ++ r :: rest⟩ := by
        simp [rowsAccount, rowAccount, hz]
        omega
      rw [hrec]
    · have hra : rowAccount ctx r = ctx.entryOverhead + r.size := by
        simp [rowAccount, hz]
      rw [if_neg hz,
        if_neg (by omega : ¬ ctx.maxDataSize < st.fillSize +
          (ctx.entryOverhead + r.size))]
      have hrow : (⟨key, r.version, r.size⟩ : Row) = r := by
        cases r
        simp_all
      by_cases hle : r.version ≤ minVersion
      · cases rest with
        | nil =>
          rw [if_pos hle, hrow]
          have hrec : (⟨st.updateIdx, st.fillIdx + 1,
              st.fillSize + (ctx.entryOverhead + r.size),
              st.emits ++ [r]⟩ : UpdState) =
              ⟨st.updateIdx, st.fillIdx + [r].length,
                st.fillSize + rowsAccount ctx [r],
                st.emits ++ [r]⟩ := by
            simp [rowsAccount, rowAccount, hz]
          rw [hrec]
        | cons r2 m =>
          exfalso
          have hmem : r ∈ (r :: r2 :: m).dropLast := by
            rw [List.dropLast_cons_of_ne_nil (List.cons_ne_nil r2 m)]
            exact List.mem_cons_self _ _
          exact absurd (hF r hmem) (by omega)
      · rw [if_neg hle, hrow]
        have hwd' : ∀ r2, rest.head? = some r2 → (false : Bool) = true →
            minVersion ≤ r2.version := by
          intro r2 _ hff
          cases hff
        have hfit' : st.fillSize + (ctx.entryOverhead + r.size) +
            rowsAccount ctx rest ≤ ctx.maxDataSize := by
          omega
        rw [ih (⟨st.updateIdx, st.fillIdx + 1,
            st.fillSize + (ctx.entryOverhead + r.size),
            st.emits ++ [r]⟩ : UpdState) false (copied + 1) hF' hB' hC' hKeys'
            hwd' hfit']
        have hrec : (⟨st.updateIdx, st.fillIdx + 1 + rest.length,
            st.fillSize + (ctx.entryOverhead + r.size) +
              rowsAccount ctx rest,
            (st.emits ++ [r]) ++ rest⟩ : UpdState) =
            ⟨st.updateIdx, st.fillIdx + (r :: rest).length,
              st.fillSize + rowsAccount ctx (r :: rest),
              st.emits ++ r :: rest⟩ := by
          simp [rowsAccount, rowAccount, hz]
          omega
        rw [hrec]

/-- A page whose records have no pending updates and keep no purgeable
version beyond their first does not need cleaning. -/
theorem needsCleaning_false_of_clean_page (minVersion : Nat) :
    ∀ (page : Page),
    (∀ g ∈ page, g.chain = []) →
    (∀ g ∈ page, ∀ r ∈ g.rows.tail, ¬ r.version < minVersion) →
    needsCleaning minVersion page = false := by
  intro page
  induction page with
  | nil => intro _ _; simp [needsCleaning]
  | cons g rest ih =>
    intro h1 h2
    have hg : g.chain = [] := h1 g (List.mem_cons_self _ _)
    by_cases hlen : g.rows.length ≤ 1
    · simp [needsCleaning, hg, hlen]
    · have hany : g.rows.tail.any
          (fun r => decide (r.version < minVersion)) = false := by
        simp only [List.any_eq_false, decide_eq_true_eq]
        exact h2 g (List.mem_cons_self _ _)
      have hrest := ih (fun x hx => h1 x (List.mem_cons_of_mem _ hx))
        (fun x hx => h2 x (List.mem_cons_of_mem _ hx))
      simp [needsCleaning, hg, hlen, hany, hrest]

/-- What `cleanKey` emits for a record satisfies the output invariants:
tombstones above the mark, no cancellable adjacent pair, all rows under the
record's key, `mFillSize` grown by exactly the accounted bytes, and at most
one floor row, at the end. -/
theorem cleanKey_ok_invariants (ctx : Ctx) (minVersion f0 key : Nat)
    (chain : List UpdateEntry) (rows emits : List Row) (fs : Nat)
    (h : cleanKey ctx minVersion f0 chain key rows = KeyResult.ok emits fs)
    (hwf : ∀ e ∈ chain, e.isDelete = false → e.dataSize ≠ 0) :
    (∀ x ∈ emits, x.size = 0 → minVersion < x.version) ∧
    List.Chain' (fun a b => a.size = 0 → minVersion ≤ b.version) emits ∧
    (∀ x ∈ emits, x.key = key) ∧
    fs = f0 + rowsAccount ctx emits ∧
    (f0 ≤ ctx.maxDataSize → rowsAccount ctx emits ≤ ctx.maxDataSize) ∧
    (∀ x ∈ emits.dropLast, minVersion < x.version) := by
  obtain ⟨hne, hcases⟩ :=
    cleanKey_ok_cases ctx minVersion f0 key chain rows emits fs h
  rcases hcases with ⟨hchain, st', hc, hemits, hfs⟩ |
    ⟨hchain, st1, l, wd, hp, hrest⟩
  · subst hemits
    subst hfs
    obtain ⟨c1, c2, c3, c4⟩ := copyMain_invariants ctx minVersion key rows
      ⟨0, 0, f0, []⟩ false 0 st' hc (by simp) (by simp) (by simp)
      (fun _ => rfl) (by simp [rowsAccount])
    have c4' : st'.fillSize + rowsAccount ctx ([] : List Row) =
        f0 + rowsAccount ctx st'.emits := c4
    simp only [rowsAccount, Nat.add_zero] at c4'
    have hkeys : ∀ x ∈ st'.emits, x.key = key := by
      intro x hx
      rcases copyMain_keys ctx minVersion key rows _ _ _ _ hc x hx with hx' | hx'
      · simp at hx'
      · exact hx'
    have hbound := copyMain_ok_fillSize_le ctx minVersion key rows _ _ _ _ hc
    have hbound2 : st'.fillSize ≤ ctx.maxDataSize ∨ st'.fillSize ≤ f0 :=
      hbound.2
    refine ⟨c1, c2, hkeys, c4', ?_, ?_⟩
    · intro hf0
      omega
    · exact copyMain_floor ctx minVersion key rows _ _ _ _ hc (by simp)
  · obtain ⟨p1, p2, p3, p4, p5⟩ := processUpdates_invariants ctx minVersion key
      chain ⟨0, 0, f0, []⟩ false UINT64MAX st1 l wd hp hwf (by simp) (by simp)
      (by simp) (fun _ => rfl) (by simp [rowsAccount])
    have p4' : st1.fillSize + rowsAccount ctx ([] : List Row) =
        f0 + rowsAccount ctx st1.emits := p4
    simp only [rowsAccount, Nat.add_zero] at p4'
    have pkeys : ∀ x ∈ st1.emits, x.key = key := by
      intro x hx
      rcases processUpdates_keys ctx minVersion key chain _ _ _ _ _ _ hp x hx
        with hx' | hx'
      · simp at hx'
      · exact hx'
    have pbound2 : st1.fillSize ≤ ctx.maxDataSize ∨ st1.fillSize ≤ f0 :=
      (processUpdates_ok_fillSize_le ctx minVersion key chain
        _ _ _ _ _ _ hp).2
    rcases hrest with ⟨hl, hemits, hfs⟩ | ⟨hl, st2, hc, hemits, hfs⟩
    · subst hemits
      subst hfs
      refine ⟨p1, p2, pkeys, p4', ?_, ?_⟩
      · intro hf0
        rcases pbound2 with hb | hb <;> omega
      · exact processUpdates_floor ctx minVersion key chain _ _ _ _ _ _ hp
          (by simp)
    · subst hemits
      subst hfs
      obtain ⟨pK, pK0⟩ := p5 hl
      obtain ⟨q1, q2, q3, q4⟩ := copyMain_invariants ctx minVersion key
        _ st1 wd 0 st2 hc p1 p2 pK pK0 p3
      have hkeys : ∀ x ∈ st2.emits, x.key = key := by
        intro x hx
        rcases copyMain_keys ctx minVersion key _ _ _ _ _ hc x hx with hx' | hx'
        · exact pkeys x hx'
        · exact hx'
      have qbound2 : st2.fillSize ≤ ctx.maxDataSize ∨
          st2.fillSize ≤ st1.fillSize :=
        (copyMain_ok_fillSize_le ctx minVersion key _ _ _ _ _ hc).2
      have hall : ∀ x ∈ st1.emits, minVersion < x.version := by
        intro x hx
        rcases (processUpdates_lowest ctx minVersion key chain _ _ _ _ _ _
          hp).2 x hx with hx' | hx'
        · simp at hx'
        · omega
      refine ⟨q1, q2, hkeys, by omega, ?_, ?_⟩
      · intro hf0
        rcases qbound2 with hb | hb
        · omega
        · rcases pbound2 with hb2 | hb2 <;> omega
      · exact copyMain_floor ctx minVersion key _ _ _ _ _ hc hall

/-- C6.  Compaction is idempotent on user-visible content.  A page that does
not need cleaning (`needsCleaning` false; in particular every page with no
pending update on any record and no purgeable version beyond the first of
each key) is passed into the output page list unmodified with `clean`
returning false; and recompacting what `cleanKey` emitted for a record — a
fresh compaction of the output rows with no pending updates — emits exactly
the same rows again. -/
theorem clean_idempotent_noop (ctx : Ctx) (minVersion : Nat) :
    (∀ (page : Page) (st : FillState),
      (∀ g ∈ page, g.chain = []) →
      (∀ g ∈ page, ∀ r ∈ g.rows.tail, ¬ r.version < minVersion) →
      needsCleaning minVersion page = false ∧
      clean ctx minVersion page st =
        (false, some { st with pages := st.pages ++ [page] })) ∧
    (∀ (f0 key : Nat) (chain : List UpdateEntry) (rows emits : List Row)
      (fs : Nat),
      cleanKey ctx minVersion f0 chain key rows = KeyResult.ok emits fs →
      (∀ e ∈ chain, e.isDelete = false → e.dataSize ≠ 0) →
      f0 ≤ ctx.maxDataSize →
      cleanKey ctx minVersion 0 [] key emits =
        KeyResult.ok emits (rowsAccount ctx emits)) := by
  constructor
  · intro page st h1 h2
    have hnc := needsCleaning_false_of_clean_page minVersion page h1 h2
    exact ⟨hnc, by simp [clean, hnc]⟩
  · intro f0 key chain rows emits fs h hwf hf0
    obtain ⟨hB, hC, hKeys, hfseq, hra, hF⟩ :=
      cleanKey_ok_invariants ctx minVersion f0 key chain rows emits fs h hwf
    have hne : emits ≠ [] :=
      (cleanKey_ok_cases ctx minVersion f0 key chain rows emits fs h).1
    have hfit : (⟨0, 0, 0, []⟩ : UpdState).fillSize +
        rowsAccount ctx emits ≤ ctx.maxDataSize := by
      have := hra hf0
      simpa using this
    have hrep := copyMain_replay ctx minVersion key emits ⟨0, 0, 0, []⟩
      false 0 hF hB hC hKeys (fun r _ hff => by cases hff) hfit
    simp only [cleanKey]
    rw [hrep]
    simp [hne]

/-- Witness for C6: an already-clean record re-emits itself byte-for-byte
when compacted again. -/
theorem clean_idempotent_noop_witness :
    cleanKey ⟨8, 16, 1000⟩ 10 0 [] 1 [⟨1, 30, 4⟩, ⟨1, 5, 4⟩] =
      KeyResult.ok [⟨1, 30, 4⟩, ⟨1, 5, 4⟩]
        (rowsAccount ⟨8, 16, 1000⟩ [⟨1, 30, 4⟩, ⟨1, 5, 4⟩]) :=
  (clean_idempotent_noop ⟨8, 16, 1000⟩ 10).2 0 1 [] [⟨1, 30, 4⟩, ⟨1, 5, 4⟩]
    [⟨1, 30, 4⟩, ⟨1, 5, 4⟩] 24 (by decide) (by decide) (by decide)

end TellStore
